import Mathlib

/-!
Verification of numd, a persistent registry of positive integers.

A shallow embedding of `daemon.cpp` (the daemon: frame codec, command
dispatcher, persistence) and `store.cpp` (the `NumberStore` class).

Modelling conventions

* A `std::string` is a list of bytes; a byte is a natural number (a real byte
  is below 256, the functions never need the bound).
* `int`, `long long` and `time_t` values are mathematical integers; the
  narrowing cast `(int)v` is `toInt32`, and the range checks of `std::stoll`
  and of `operator>>` are explicit.
* A `std::map<int, time_t>` is an association list kept in strictly ascending
  key order (`Ordered`), which is also its iteration order.
* Every function is its behaviour in one thread. Of `db_mutex` only what one
  thread does to itself is modelled: `save_db_to_file` called by a handler
  that holds the mutex exclusively (`save_db_to_file_locked`) does not return
  once the file is open, and `handle_command` then has no reply. The
  operations a command performs on `db_mutex` are listed, in program order,
  by `handle_command_locks`.
* `time(nullptr)` is the parameter `now` of `handle_command`.
* The snapshot file at `DB_PATH` is part of the daemon state: its content
  (`none` when the file cannot be opened for reading) and whether it can be
  opened for writing.
* A descriptor carries the outcome of its coming `read` / `write` calls
  (partial transfer, `EINTR`, error); a connection is one descriptor read and
  one written.
* Loops of the source that have no structural bound run on a number of rounds
  that is shown never to be used up.
-/

namespace Numd

/-! ## Bytes and text -/

/-- A `std::string`: its bytes, each a natural number. -/
abbrev Str := List Nat

/-- The bytes of an ASCII string literal of the source. -/
def lit (s : String) : Str := s.toList.map Char.toNat

/-- Models `isspace` in the "C" locale: space, `\t`, `\n`, `\v`, `\f`, `\r`. -/
def isspace (b : Nat) : Bool := b == 32 || (9 ≤ b && b ≤ 13)

/-- Models `isdigit`: `'0'..'9'`. -/
def isdigit (b : Nat) : Bool := 48 ≤ b && b ≤ 57

/-- Models `toupper((unsigned char)c)` in the "C" locale. -/
def toupper (b : Nat) : Nat := if 97 ≤ b ∧ b ≤ 122 then b - 32 else b

/-! ## Machine integer ranges -/

def INT_MIN : Int := -2147483648
def INT_MAX : Int := 2147483647
def LLONG_MIN : Int := -9223372036854775808
def LLONG_MAX : Int := 9223372036854775807

/-- The cast `(int)v` of a `long long`: reduction modulo `2^32` into
`[-2^31, 2^31)`. -/
def toInt32 (v : Int) : Int := (v + 2147483648) % 4294967296 - 2147483648

/-! ## Decimal output: `ostream << n` -/

/-- Digits of `n`, most significant first, pushed in front of `acc`. -/
def digitsAux : Nat → Nat → Str → Str
  | 0, _, acc => acc
  | fuel + 1, n, acc =>
    if n < 10 then (48 + n) :: acc
    else digitsAux fuel (n / 10) ((48 + n % 10) :: acc)

/-- Models `oss << n` for an unsigned `n` (`size_t`). -/
def showNat (n : Nat) : Str := digitsAux (n + 1) n []

/-- Models `oss << v` for a signed `v` (`int`, `long long`). -/
def showInt (v : Int) : Str :=
  if v < 0 then 45 :: showNat v.natAbs else showNat v.natAbs

/-! ## Decimal input: `strtoll` / `num_get` -/

/-- Reads the longest run of decimal digits, accumulating its value; the
`Bool` tells whether at least one digit was read. -/
def scanDigits : Str → Nat → Bool → Nat × Bool × Str
  | [], acc, any => (acc, any, [])
  | b :: rest, acc, any =>
    if isdigit b then scanDigits rest (10 * acc + (b - 48)) true
    else (acc, any, b :: rest)

/-- Drops leading whitespace. -/
def skipws : Str → Str
  | [] => []
  | b :: rest => if isspace b then skipws rest else b :: rest

/-- The common core of `strtoll(s, &end, 10)` and of `num_get` for a signed
integer: leading whitespace, an optional sign, decimal digits. Returns the
value (unbounded) and the unread rest, or `none` when there is no digit. -/
def scanInt (s : Str) : Option (Int × Str) :=
  match skipws s with
  | [] => none
  | b :: rest =>
    if b = 45 then
      match scanDigits rest 0 false with
      | (n, true, r) => some (-(n : Int), r)
      | (_, false, _) => none
    else if b = 43 then
      match scanDigits rest 0 false with
      | (n, true, r) => some ((n : Int), r)
      | (_, false, _) => none
    else
      match scanDigits (b :: rest) 0 false with
      | (n, true, r) => some ((n : Int), r)
      | (_, false, _) => none

/-- Models `std::stoll(s)`: `none` stands for a thrown exception (`invalid_argument`
when there is no digit, `out_of_range` when the value does not fit a
`long long`). Characters after the number are ignored. -/
def stoll (s : Str) : Option Int :=
  match scanInt s with
  | none => none
  | some (v, _) => if LLONG_MIN ≤ v ∧ v ≤ LLONG_MAX then some v else none

/-- Models `is >> x` for a signed integer `x` whose type has the range `[lo, hi]`:
`none` when the stream fails (no digit, or a value out of range). -/
def readInt (lo hi : Int) (s : Str) : Option (Int × Str) :=
  match scanInt s with
  | none => none
  | some (v, r) => if lo ≤ v ∧ v ≤ hi then some (v, r) else none

/-! ## `std::map<int, time_t>` -/

/-- The registry: key/timestamp pairs in iteration order. -/
abbrev Db := List (Int × Int)

/-- The representation invariant of `std::map`: keys strictly ascending. -/
def Ordered (db : Db) : Prop := List.Pairwise (fun a b => a < b) (db.map Prod.fst)

instance (db : Db) : Decidable (Ordered db) := by
  unfold Ordered; infer_instance

/-- Every key is positive. -/
def Positive (db : Db) : Prop := ∀ p ∈ db, 0 < p.1

instance (db : Db) : Decidable (Positive db) := by
  unfold Positive; infer_instance

/-- Keys are `int` values and timestamps are `long long` values. -/
def InRange (db : Db) : Prop :=
  ∀ p ∈ db, (INT_MIN ≤ p.1 ∧ p.1 ≤ INT_MAX) ∧ (LLONG_MIN ≤ p.2 ∧ p.2 ≤ LLONG_MAX)

instance (db : Db) : Decidable (InRange db) := by
  unfold InRange; infer_instance

/-- Models `db.find(k)`: the mapped value, `none` for `db.end()`. -/
def find (k : Int) : Db → Option Int
  | [] => none
  | (k', v) :: rest => if k = k' then some v else find k rest

/-- Models `db[k] = v`: insert or overwrite, at the key's place in the order. -/
def assign (k v : Int) : Db → Db
  | [] => [(k, v)]
  | (k', v') :: rest =>
    if k < k' then (k, v) :: (k', v') :: rest
    else if k = k' then (k, v) :: rest
    else (k', v') :: assign k v rest

/-- Models `db.erase(it)` for the iterator `it = db.find(k)`. -/
def eraseKey (k : Int) : Db → Db
  | [] => []
  | (k', v) :: rest => if k = k' then rest else (k', v) :: eraseKey k rest

/-! ## Snapshot text -/

/-- One entry as text: `key`, a space, `ts`, a newline. -/
def entryLine (k ts : Int) : Str := showInt k ++ 32 :: (showInt ts ++ [10])

/-- The loop of `save_db_to_file` / `saveToFile`:
`ofs << p.first << ' ' << (long long)p.second << '\n'` per entry, in iteration
order. -/
def serialise : Db → Str
  | [] => []
  | (k, ts) :: rest => entryLine k ts ++ serialise rest

/-- The loop `while (ifs >> num >> ts) if (num > 0) db[num] = ts;`. -/
def loadLoop : Nat → Str → Db → Db
  | 0, _, db => db
  | fuel + 1, s, db =>
    match readInt INT_MIN INT_MAX s with
    | none => db
    | some (num, s1) =>
      match readInt LLONG_MIN LLONG_MAX s1 with
      | none => db
      | some (ts, s2) => loadLoop fuel s2 (if 0 < num then assign num ts db else db)

/-- The whole read loop on a file's text; every round consumes a byte, so
`s.length + 1` rounds are never used up. -/
def loadText (s : Str) : Db := loadLoop (s.length + 1) s []

/-! ## `store.cpp`: the class `NumberStore` -/

namespace NumberStore

/-- Models `NumberStore::insert(value, now, msg)`: the returned flag, `msg`, and the
map afterwards. -/
def insert (db : Db) (value now : Int) : Bool × Str × Db :=
  if value ≤ 0 then (false, lit "ERROR Only positive integers allowed", db)
  else if (find value db).isSome then
    (false, lit "ERROR Duplicate entry not permitted", db)
  else
    (true, lit "OK Inserted " ++ showInt value ++ lit " " ++ showInt now,
      assign value now db)

/-- Models `NumberStore::erase(value, msg)`. -/
def erase (db : Db) (value : Int) : Bool × Str × Db :=
  match find value db with
  | none => (false, lit "ERROR Not found", db)
  | some ts =>
    (true, lit "OK Deleted " ++ showInt value ++ lit " " ++ showInt ts,
      eraseKey value db)

/-- Models `NumberStore::eraseAll(msg)`. -/
def eraseAll (db : Db) : Str × Db :=
  (lit "OK DeletedAll " ++ showNat db.length, [])

/-- Models `NumberStore::getAll()`. -/
def getAll (db : Db) : Db := db

/-- Models `NumberStore::size()`. -/
def size (db : Db) : Nat := db.length

/-- Models `NumberStore::loadFromFile(path)`; `content` is the text of the file at
`path`, `none` when it cannot be opened. -/
def loadFromFile (content : Option Str) (db : Db) : Bool × Db :=
  match content with
  | none => (false, db)
  | some text => (true, loadText text)

/-- Models `NumberStore::saveToFile(path)`; returns the flag and the file's new text
(`old` when the file cannot be opened for writing). -/
def saveToFile (db : Db) (writable : Bool) (old : Option Str) : Bool × Option Str :=
  if writable then (true, some (serialise db)) else (false, old)

end NumberStore

/-! ## `daemon.cpp` -/

/-- The daemon's global state: the map `db` and the snapshot file `DB_PATH`. -/
structure Daemon where
  /-- The global `std::map<int, time_t> db`. -/
  db : Db
  /-- Text of the file at `DB_PATH`; `none` when it cannot be opened for reading. -/
  file : Option Str
  /-- Whether `DB_PATH` can be opened for writing. -/
  writable : Bool
  deriving DecidableEq

/-- Models `load_db_from_file(path)`; `content` is the text of the file at `path`. -/
def load_db_from_file (content : Option Str) (s : Daemon) : Bool × Daemon :=
  match content with
  | none => (false, s)
  | some text => (true, { s with db := loadText text })

/-- Models `save_db_to_file(DB_PATH)` called by a thread that does not hold
`db_mutex`, as at the end of `main` (`daemon.cpp:271`). -/
def save_db_to_file (s : Daemon) : Bool × Daemon :=
  if s.writable then (true, { s with file := some (serialise s.db) }) else (false, s)

/-- The loop of `split_ws`; `cur` is the word being read. -/
def splitAux : Str → Str → List Str
  | [], cur => if cur = [] then [] else [cur]
  | b :: rest, cur =>
    if isspace b then
      if cur = [] then splitAux rest [] else cur :: splitAux rest []
    else splitAux rest (cur ++ [b])

/-- Models `split_ws(s)`: the maximal runs of non-whitespace bytes. -/
def split_ws (s : Str) : List Str := splitAux s []

/-- The loop of the `PRINT` branch: `oss << p.first << " " << p.second << "\n"`
per entry, in iteration order. -/
def printLines : Db → Str
  | [] => []
  | (k, ts) :: rest => entryLine k ts ++ printLines rest

/-- Models the call `save_db_to_file(DB_PATH)` made by a branch of
`handle_command` inside the scope of its `std::unique_lock lock(db_mutex)`.
When the file cannot be opened the function returns false before it touches
the mutex. When it can, `std::ofstream ofs(path, std::ios::trunc)` has emptied
the file by the time `std::shared_lock lock(db_mutex)` is constructed on a
mutex the thread owns exclusively: undefined behaviour, in libstdc++ a thrown
`std::system_error` that nothing catches. The call does not return: `none`. -/
def save_db_to_file_locked (s : Daemon) : Option Bool × Daemon :=
  if s.writable then (none, { s with file := some [] }) else (some false, s)

/-- The end of a mutating branch once the map is changed: `save_db_to_file`
under the exclusive lock, then the reply `r`; no reply when the call does not
return. -/
def saveThenReply (r : Str) (s : Daemon) : Option Str × Daemon :=
  match save_db_to_file_locked s with
  | (none, s1) => (none, s1)
  | (some _, s1) => (some r, s1)

/-- The `INSERT` branch of `handle_command`. -/
def handleInsert (s : Daemon) (now : Int) (parts : List Str) : Option Str × Daemon :=
  if parts.length ≠ 2 then (some (lit "ERROR Usage: INSERT <positive_integer>"), s)
  else
    match stoll (parts.getD 1 []) with
    | none => (some (lit "ERROR Invalid integer"), s)
    | some v =>
      if v ≤ 0 then (some (lit "ERROR Only positive integers allowed"), s)
      else
        let val := toInt32 v
        if (find val s.db).isSome then
          (some (lit "ERROR Duplicate entry not permitted"), s)
        else
          saveThenReply (lit "OK Inserted " ++ showInt val ++ lit " " ++ showInt now)
            { s with db := assign val now s.db }

/-- The `DELETE` branch of `handle_command`. -/
def handleDelete (s : Daemon) (parts : List Str) : Option Str × Daemon :=
  if parts.length ≠ 2 then (some (lit "ERROR Usage: DELETE <positive_integer>"), s)
  else
    match stoll (parts.getD 1 []) with
    | none => (some (lit "ERROR Invalid integer"), s)
    | some v =>
      if v ≤ 0 then (some (lit "ERROR Only positive integers allowed"), s)
      else
        let val := toInt32 v
        match find val s.db with
        | none => (some (lit "ERROR Not found"), s)
        | some ts =>
          saveThenReply (lit "OK Deleted " ++ showInt val ++ lit " " ++ showInt ts)
            { s with db := eraseKey val s.db }

/-- The `PRINT` branch of `handle_command`. -/
def handlePrint (s : Daemon) : Option Str × Daemon :=
  (some (lit "OK BEGIN_LIST " ++ showNat s.db.length ++ lit "\n" ++ printLines s.db
    ++ lit "OK END_LIST"), s)

/-- The `DELETEALL` branch of `handle_command`. -/
def handleDeleteAll (s : Daemon) : Option Str × Daemon :=
  saveThenReply (lit "OK DeletedAll " ++ showNat s.db.length) { s with db := [] }

/-- Models `handle_command(cmdline)`: the reply, `none` when an exception
leaves the call instead, and the state afterwards; `now` is what
`time(nullptr)` returns during the call. -/
def handle_command (s : Daemon) (now : Int) (cmdline : Str) : Option Str × Daemon :=
  match split_ws cmdline with
  | [] => (some (lit "ERROR Empty command"), s)
  | p0 :: args =>
    let cmd := p0.map toupper
    if cmd = lit "INSERT" then handleInsert s now (p0 :: args)
    else if cmd = lit "DELETE" then handleDelete s (p0 :: args)
    else if cmd = lit "PRINT" then handlePrint s
    else if cmd = lit "DELETEALL" then handleDeleteAll s
    else if cmd = lit "QUIT" ∨ cmd = lit "EXIT" then (some (lit "OK BYE"), s)
    else (some (lit "ERROR Unknown command"), s)

/-- The registry at process start: empty map. -/
def Daemon.init (file : Option Str) (writable : Bool) : Daemon :=
  { db := [], file := file, writable := writable }

/-! ## Frame codec -/

/-- What the kernel does on one `read` or `write` call of a descriptor. -/
inductive IoEvent where
  /-- The call returns `-1` with `errno == EINTR`. -/
  | intr
  /-- The call returns `-1` with another `errno`. -/
  | fail
  /-- The call transfers at most `n + 1` bytes (a partial read or write). -/
  | chunk (n : Nat)
  deriving DecidableEq

/-- The result of one `read` or `write` call. -/
inductive IoResult where
  /-- Returned `-1`; the flag tells whether `errno == EINTR`. -/
  | err (eintr : Bool)
  /-- Transferred these bytes (none: `read` returned `0`, end of file). -/
  | ok (bytes : Str)
  deriving DecidableEq

/-- A descriptor being read: the bytes the peer has sent and that are not yet
read, and what the coming calls do. Once `events` is used up a call transfers
all it was asked for. -/
structure InFd where
  pending : Str
  events : List IoEvent
  deriving DecidableEq

/-- A descriptor being written: the bytes written so far, and what the coming
calls do. -/
structure OutFd where
  sent : Str
  events : List IoEvent
  deriving DecidableEq

/-- No call on the descriptor fails with an error other than `EINTR`. -/
def NoFail (events : List IoEvent) : Prop := IoEvent.fail ∉ events

instance (events : List IoEvent) : Decidable (NoFail events) := by
  unfold NoFail; infer_instance

/-- Models `read(fd, p, left)`. -/
def read (fd : InFd) (left : Nat) : IoResult × InFd :=
  match fd.events with
  | IoEvent.intr :: es => (IoResult.err true, { fd with events := es })
  | IoEvent.fail :: es => (IoResult.err false, { fd with events := es })
  | IoEvent.chunk n :: es =>
    (IoResult.ok (fd.pending.take (min (n + 1) left)),
      { pending := fd.pending.drop (min (n + 1) left), events := es })
  | [] => (IoResult.ok (fd.pending.take left), { fd with pending := fd.pending.drop left })

/-- Models `write(fd, p, left)` for the `left` bytes `bytes`. -/
def write (fd : OutFd) (bytes : Str) : IoResult × OutFd :=
  match fd.events with
  | IoEvent.intr :: es => (IoResult.err true, { fd with events := es })
  | IoEvent.fail :: es => (IoResult.err false, { fd with events := es })
  | IoEvent.chunk n :: es =>
    (IoResult.ok (bytes.take (n + 1)),
      { sent := fd.sent ++ bytes.take (n + 1), events := es })
  | [] => (IoResult.ok bytes, { fd with sent := fd.sent ++ bytes })

/-- The loop of `read_exact`: `left` bytes to go, `buf` read so far. Returns
the `ssize_t` result, the bytes stored in the buffer and the descriptor. -/
def readExactLoop : Nat → InFd → Nat → Str → Nat → Int × Str × InFd
  | 0, fd, _, buf, _ => (-1, buf, fd)
  | fuel + 1, fd, left, buf, count =>
    if left = 0 then ((count : Int), buf, fd)
    else
      match read fd left with
      | (IoResult.err eintr, fd1) =>
        if eintr then readExactLoop fuel fd1 left buf count else (-1, buf, fd1)
      | (IoResult.ok bytes, fd1) =>
        if bytes = [] then (0, buf, fd1)
        else readExactLoop fuel fd1 (left - bytes.length) (buf ++ bytes) count

/-- Models `read_exact(fd, buf, count)`. Every round of the loop uses up an event or
reads a byte, so the rounds allowed here are never used up. -/
def read_exact (fd : InFd) (count : Nat) : Int × Str × InFd :=
  readExactLoop (fd.events.length + count + 1) fd count [] count

/-- The loop of `write_exact`: `rest` still to write. -/
def writeExactLoop : Nat → OutFd → Str → Nat → Int × OutFd
  | 0, fd, _, _ => (-1, fd)
  | fuel + 1, fd, rest, count =>
    if rest = [] then ((count : Int), fd)
    else
      match write fd rest with
      | (IoResult.err eintr, fd1) =>
        if eintr then writeExactLoop fuel fd1 rest count else (-1, fd1)
      | (IoResult.ok bytes, fd1) =>
        if bytes = [] then
          -- `w == 0`: `errno` is whatever it was; not produced by `write` above
          (-1, fd1)
        else writeExactLoop fuel fd1 (rest.drop bytes.length) count

/-- Models `write_exact(fd, buf, count)`. -/
def write_exact (fd : OutFd) (bytes : Str) : Int × OutFd :=
  writeExactLoop (fd.events.length + bytes.length + 1) fd bytes bytes.length

/-- The four bytes in memory of `htonl(n)` for a `uint32_t n`: big-endian. -/
def htonl (n : Nat) : Str :=
  [n / 16777216 % 256, n / 65536 % 256, n / 256 % 256, n % 256]

/-- Models `ntohl` of the `uint32_t` whose four bytes in memory are `bytes`. -/
def ntohl (bytes : Str) : Nat :=
  match bytes with
  | [b0, b1, b2, b3] => ((b0 * 256 + b1) * 256 + b2) * 256 + b3
  | _ => 0

/-- Models `send_payload(fd, payload)`. -/
def send_payload (fd : OutFd) (payload : Str) : Bool × OutFd :=
  let len := htonl (payload.length % 4294967296)
  match write_exact fd len with
  | (r, fd1) =>
    if r ≠ 4 then (false, fd1)
    else if payload ≠ [] then
      match write_exact fd1 payload with
      | (r2, fd2) => if r2 ≠ (payload.length : Int) then (false, fd2) else (true, fd2)
    else (true, fd1)

/-- Models `recv_payload(fd, out)`: the flag, `out` afterwards, the descriptor. -/
def recv_payload (fd : InFd) (out : Str) : Bool × Str × InFd :=
  match read_exact fd 4 with
  | (r, len_net, fd1) =>
    if r = 0 then (false, out, fd1)
    else if r ≠ 4 then (false, out, fd1)
    else
      let len := ntohl len_net
      if len = 0 then (true, [], fd1)
      else
        match read_exact fd1 len with
        | (r2, body, fd2) =>
          if r2 ≠ (len : Int) then
            (false, body ++ List.replicate (len - body.length) 0, fd2)
          else (true, body, fd2)

/-- The daemon states that can arise: the start state, then any number of
`load_db_from_file` and `handle_command` calls, the snapshot file being
changed by its environment at any time. -/
inductive Reachable : Daemon → Prop
  | start (file : Option Str) (writable : Bool) : Reachable (Daemon.init file writable)
  | load (s : Daemon) (content : Option Str) :
      Reachable s → Reachable (load_db_from_file content s).2
  | command (s : Daemon) (now : Int) (cmdline : Str) :
      Reachable s → Reachable (handle_command s now cmdline).2
  | env (s : Daemon) (file : Option Str) (writable : Bool) :
      Reachable s → Reachable { s with file := file, writable := writable }

/-- The `NumberStore` states that can arise from the empty store through the
public member functions. -/
inductive NumberStore.Reach : Db → Prop
  | empty : NumberStore.Reach []
  | insert (db : Db) (value now : Int) :
      NumberStore.Reach db → NumberStore.Reach (NumberStore.insert db value now).2.2
  | erase (db : Db) (value : Int) :
      NumberStore.Reach db → NumberStore.Reach (NumberStore.erase db value).2.2
  | eraseAll (db : Db) :
      NumberStore.Reach db → NumberStore.Reach (NumberStore.eraseAll db).2
  | loadFromFile (db : Db) (content : Option Str) :
      NumberStore.Reach db → NumberStore.Reach (NumberStore.loadFromFile content db).2

/-- The text of the detail lines of a listing, one `entryLine` per entry. -/
def detailLines (db : Db) : List Str := db.map (fun p => entryLine p.1 p.2)

/-- The value of a run of decimal digits read after the value `a`. -/
def digitsVal (a : Nat) (ds : Str) : Nat := ds.foldl (fun acc d => 10 * acc + (d - 48)) a

/-- A text that does not begin with a decimal digit: a number read in front of
it ends there. -/
def NoDigitHead : Str → Prop
  | [] => True
  | b :: _ => isdigit b = false

instance (s : Str) : Decidable (NoDigitHead s) := by
  cases s <;> unfold NoDigitHead <;> infer_instance

/-! ## Connection handler -/

/-- The test that ends the loop of `client_worker` after a reply: the first
token of the request, upper-cased, is `QUIT` or `EXIT`. -/
def quitRequested (req : Str) : Bool :=
  match split_ws req with
  | [] => false
  | p0 :: _ => decide (p0.map toupper = lit "QUIT" ∨ p0.map toupper = lit "EXIT")

/-- The loop of `client_worker` on a connection whose two directions are `inp`
and `out`. `clock i` is what `time(nullptr)` returns while the `i`-th
dispatched request is handled; `req` is the variable `req`. Returns the
daemon state and the connection when the worker stops: the loop is left and
the connection closed, or an exception leaves `handle_command`, which nothing
in the thread catches. -/
def workerLoop : Nat → (Nat → Int) → Nat → Daemon → InFd → OutFd → Str →
    Daemon × InFd × OutFd
  | 0, _, _, s, inp, out, _ => (s, inp, out)
  | fuel + 1, clock, i, s, inp, out, req =>
    match recv_payload inp req with
    | (false, _, inp1) => (s, inp1, out)
    | (true, req1, inp1) =>
      if req1 = [] then workerLoop fuel clock i s inp1 out req1
      else
        match handle_command s (clock i) req1 with
        | (none, s1) => (s1, inp1, out)
        | (some reply, s1) =>
          match send_payload out reply with
          | (false, out1) => (s1, inp1, out1)
          | (true, out1) =>
            if quitRequested req1 then (s1, inp1, out1)
            else workerLoop fuel clock (i + 1) s1 inp1 out1 req1

/-- Models `client_worker(client_fd)`. A round of the loop that does not leave
it has read a frame, at least four bytes, so the rounds allowed here are
never used up. -/
def client_worker (clock : Nat → Int) (s : Daemon) (inp : InFd) (out : OutFd) :
    Daemon × InFd × OutFd :=
  workerLoop (inp.pending.length + 1) clock 0 s inp out []

/-- One frame on the wire: the length as four bytes, most significant first,
then the payload. -/
def frame (payload : Str) : Str := htonl (payload.length % 4294967296) ++ payload

/-- Frames one after the other. -/
def frames : List Str → Str
  | [] => []
  | p :: ps => frame p ++ frames ps

/-- The text `r` begins with the text `p`. -/
def startsWith (p r : Str) : Prop := r.take p.length = p

instance (p r : Str) : Decidable (startsWith p r) := by
  unfold startsWith; infer_instance

/-- The reply of a successful mutating command: it begins with "OK Inserted ",
"OK Deleted " or "OK DeletedAll ". -/
def MutationReply (r : Str) : Prop :=
  startsWith (lit "OK Inserted ") r ∨ startsWith (lit "OK Deleted ") r ∨
    startsWith (lit "OK DeletedAll ") r

instance (r : Str) : Decidable (MutationReply r) := by
  unfold MutationReply; infer_instance

/-! ## Reload, operation sequences, lock operations -/

/-- The body of the read loop for one line `key ts`: keep it when the key is
positive. -/
def loadStep (db : Db) (p : Int × Int) : Db := if 0 < p.1 then assign p.1 p.2 db else db

/-- A text at which the read loop `while (ifs >> num >> ts)` ends: no key can
be read, or a key and then no timestamp. -/
def StopsReading (s : Str) : Prop :=
  match readInt INT_MIN INT_MAX s with
  | none => True
  | some (_, s1) => readInt LLONG_MIN LLONG_MAX s1 = none

instance (s : Str) : Decidable (StopsReading s) := by
  unfold StopsReading
  split <;> infer_instance

/-- One call of a mutating member function of `NumberStore`. -/
inductive StoreOp where
  | insert (value now : Int)
  | erase (value : Int)
  | eraseAll
  deriving DecidableEq

/-- The map after one call. -/
def NumberStore.apply (db : Db) : StoreOp → Db
  | StoreOp.insert value now => (NumberStore.insert db value now).2.2
  | StoreOp.erase value => (NumberStore.erase db value).2.2
  | StoreOp.eraseAll => (NumberStore.eraseAll db).2

/-- The map after a sequence of calls. -/
def NumberStore.run : Db → List StoreOp → Db
  | db, [] => db
  | db, op :: ops => NumberStore.run (NumberStore.apply db op) ops

/-- The `now` argument of the most recent call `insert(k, now)` that returned
true while `ops` ran from `db`; `acc` is the answer before `ops`. -/
def lastInsert (k : Int) : Db → List StoreOp → Option Int → Option Int
  | _, [], acc => acc
  | db, StoreOp.insert value now :: ops, acc =>
    lastInsert k (NumberStore.apply db (StoreOp.insert value now)) ops
      (if value = k ∧ (NumberStore.insert db value now).1 = true then some now else acc)
  | db, op :: ops, acc => lastInsert k (NumberStore.apply db op) ops acc

/-- An operation on `db_mutex`. -/
inductive LockOp where
  /-- Exclusive acquisition: the constructor of `std::unique_lock`. -/
  | lock
  /-- Release of the exclusive lock: the destructor of `std::unique_lock`. -/
  | unlock
  /-- Shared acquisition: the constructor of `std::shared_lock`. -/
  | lock_shared
  /-- Release of a shared lock: the destructor of `std::shared_lock`. -/
  | unlock_shared
  deriving DecidableEq

/-- The operations on `db_mutex` of a mutating branch that has changed the
map, in program order: the exclusive acquisition, then `save_db_to_file`,
which returns before the mutex when the file cannot be opened and otherwise
attempts the shared acquisition, the last operation listed because that call
does not return (`save_db_to_file_locked`). -/
def mutationLocks (s : Daemon) : List LockOp :=
  if s.writable then [LockOp.lock, LockOp.lock_shared] else [LockOp.lock, LockOp.unlock]

/-- The operations of the `INSERT` branch on `db_mutex`, in program order. -/
def handleInsertLocks (s : Daemon) (parts : List Str) : List LockOp :=
  if parts.length ≠ 2 then []
  else
    match stoll (parts.getD 1 []) with
    | none => []
    | some v =>
      if v ≤ 0 then []
      else if (find (toInt32 v) s.db).isSome then [LockOp.lock, LockOp.unlock]
      else mutationLocks s

/-- The operations of the `DELETE` branch on `db_mutex`, in program order. -/
def handleDeleteLocks (s : Daemon) (parts : List Str) : List LockOp :=
  if parts.length ≠ 2 then []
  else
    match stoll (parts.getD 1 []) with
    | none => []
    | some v =>
      if v ≤ 0 then []
      else
        match find (toInt32 v) s.db with
        | none => [LockOp.lock, LockOp.unlock]
        | some _ => mutationLocks s

/-- The operations of `handle_command` on `db_mutex`, in program order. -/
def handle_command_locks (s : Daemon) (cmdline : Str) : List LockOp :=
  match split_ws cmdline with
  | [] => []
  | p0 :: args =>
    let cmd := p0.map toupper
    if cmd = lit "INSERT" then handleInsertLocks s (p0 :: args)
    else if cmd = lit "DELETE" then handleDeleteLocks s (p0 :: args)
    else if cmd = lit "PRINT" then [LockOp.lock_shared, LockOp.unlock_shared]
    else if cmd = lit "DELETEALL" then mutationLocks s
    else []

/-- Whether a sequence of operations of one thread acquires the mutex, shared
or exclusive, while that thread holds it exclusively; `held` tells whether it
holds it exclusively at the start. -/
def acquiresWhileExclusive : Bool → List LockOp → Bool
  | _, [] => false
  | held, LockOp.lock :: rest => held || acquiresWhileExclusive true rest
  | held, LockOp.lock_shared :: rest => held || acquiresWhileExclusive held rest
  | _, LockOp.unlock :: rest => acquiresWhileExclusive false rest
  | held, LockOp.unlock_shared :: rest => acquiresWhileExclusive held rest

/-! ## Lemmas on the map operations -/

theorem find_assign (x k v : Int) (db : Db) :
    find x (assign k v db) = if x = k then some v else find x db := by
  induction db with
  | nil => simp [assign, find]
  | cons p rest ih =>
    obtain ⟨k', v'⟩ := p
    by_cases h1 : k < k'
    · simp only [assign, if_pos h1]
      rw [find]
    · by_cases h2 : k = k'
      · subst h2
        simp only [assign, if_neg h1, if_true, find]
        by_cases h3 : x = k
        · simp [h3]
        · simp [h3]
      · simp only [assign, if_neg h1, if_neg h2, find, ih]
        by_cases h3 : x = k
        · have h4 : x ≠ k' := fun h => h2 (h3 ▸ h)
          simp [h3, h4, h2]
        · simp [h3]

theorem length_assign (k v : Int) (db : Db) (h : find k db = none) :
    (assign k v db).length = db.length + 1 := by
  induction db with
  | nil => simp [assign]
  | cons p rest ih =>
    obtain ⟨k', v'⟩ := p
    simp only [find] at h
    simp only [assign]
    split_ifs with h1 h2
    · simp
    · simp [h2] at h
    · simp only [if_neg h2] at h
      simp [ih h]

theorem mem_assign (p : Int × Int) (k v : Int) (db : Db) (h : p ∈ assign k v db) :
    p = (k, v) ∨ p ∈ db := by
  induction db with
  | nil => simpa [assign] using h
  | cons q rest ih =>
    obtain ⟨k', v'⟩ := q
    simp only [assign] at h
    split_ifs at h with h1 h2
    · simpa using h
    · rcases List.mem_cons.mp h with h | h
      · exact Or.inl h
      · exact Or.inr (List.mem_cons_of_mem _ h)
    · rcases List.mem_cons.mp h with h | h
      · exact Or.inr (by simp [h])
      · rcases ih h with h | h
        · exact Or.inl h
        · exact Or.inr (List.mem_cons_of_mem _ h)

theorem ordered_cons (k v : Int) (db : Db) :
    Ordered ((k, v) :: db) ↔ (∀ p ∈ db, k < p.1) ∧ Ordered db := by
  simp [Ordered, List.pairwise_cons]

theorem ordered_assign (k v : Int) (db : Db) (h : Ordered db) :
    Ordered (assign k v db) := by
  induction db with
  | nil => simp [assign, Ordered]
  | cons q rest ih =>
    obtain ⟨k', v'⟩ := q
    rw [ordered_cons] at h
    simp only [assign]
    split_ifs with h1 h2
    · rw [ordered_cons, ordered_cons]
      refine ⟨?_, h⟩
      intro p hp
      rcases List.mem_cons.mp hp with hp | hp
      · rw [hp]; exact h1
      · exact lt_trans h1 (h.1 p hp)
    · rw [ordered_cons, h2]
      exact h
    · rw [ordered_cons]
      refine ⟨?_, ih h.2⟩
      intro p hp
      rcases mem_assign p k v rest hp with hp | hp
      · rw [hp]; show k' < k; omega
      · exact h.1 p hp

theorem find_eq_none_of_lt (k : Int) (db : Db) (h : ∀ p ∈ db, k < p.1) :
    find k db = none := by
  induction db with
  | nil => rfl
  | cons q rest ih =>
    obtain ⟨k', v'⟩ := q
    have h1 : k < k' := h (k', v') (List.mem_cons_self _ _)
    have h2 : k ≠ k' := by omega
    simp only [find, h2, if_false]
    exact ih (fun p hp => h p (List.mem_cons_of_mem _ hp))

theorem mem_of_find (k t : Int) (db : Db) (h : find k db = some t) : (k, t) ∈ db := by
  induction db with
  | nil => simp [find] at h
  | cons q rest ih =>
    obtain ⟨k', v'⟩ := q
    unfold find at h
    by_cases h2 : k = k'
    · simp only [h2, if_true, Option.some.injEq] at h
      simp [h2, h]
    · simp only [h2, if_false] at h
      exact List.mem_cons_of_mem _ (ih h)

theorem find_of_mem (k t : Int) (db : Db) (ho : Ordered db) (h : (k, t) ∈ db) :
    find k db = some t := by
  induction db with
  | nil => simp at h
  | cons q rest ih =>
    obtain ⟨k', v'⟩ := q
    rw [ordered_cons] at ho
    rcases List.mem_cons.mp h with h | h
    · simp only [Prod.mk.injEq] at h
      simp [find, h.1, h.2]
    · have h1 : k' < k := ho.1 (k, t) h
      have h2 : k ≠ k' := by omega
      simp only [find, h2, if_false]
      exact ih ho.2 h

theorem mem_eraseKey (p : Int × Int) (k : Int) (db : Db) (h : p ∈ eraseKey k db) :
    p ∈ db := by
  induction db with
  | nil => simp [eraseKey] at h
  | cons q rest ih =>
    obtain ⟨k', v'⟩ := q
    unfold eraseKey at h
    by_cases h2 : k = k'
    · simp only [h2, if_true] at h
      exact List.mem_cons_of_mem _ h
    · simp only [h2, if_false] at h
      rcases List.mem_cons.mp h with h | h
      · simp [h]
      · exact List.mem_cons_of_mem _ (ih h)

theorem ordered_eraseKey (k : Int) (db : Db) (h : Ordered db) :
    Ordered (eraseKey k db) := by
  induction db with
  | nil => simpa [eraseKey] using h
  | cons q rest ih =>
    obtain ⟨k', v'⟩ := q
    rw [ordered_cons] at h
    unfold eraseKey
    by_cases h2 : k = k'
    · simp only [h2, if_true]
      exact h.2
    · simp only [h2, if_false]
      rw [ordered_cons]
      exact ⟨fun p hp => h.1 p (mem_eraseKey p k rest hp), ih h.2⟩

theorem find_eraseKey (x k : Int) (db : Db) (h : Ordered db) :
    find x (eraseKey k db) = if x = k then none else find x db := by
  induction db with
  | nil => simp [eraseKey, find]
  | cons q rest ih =>
    obtain ⟨k', v'⟩ := q
    rw [ordered_cons] at h
    unfold eraseKey
    by_cases h2 : k = k'
    · subst h2
      simp only [if_true]
      by_cases h3 : x = k
      · subst h3
        simp only [if_true]
        exact find_eq_none_of_lt x rest h.1
      · simp [find, h3]
    · simp only [h2, if_false, find, ih h.2]
      by_cases h3 : x = k'
      · have : x ≠ k := fun hx => h2 (hx ▸ h3)
        simp [h3]
        intro hk; exact absurd hk.symm h2
      · simp [h3]

theorem length_eraseKey (k t : Int) (db : Db) (h : find k db = some t) :
    (eraseKey k db).length + 1 = db.length := by
  induction db with
  | nil => simp [find] at h
  | cons q rest ih =>
    obtain ⟨k', v'⟩ := q
    unfold find at h
    unfold eraseKey
    by_cases h2 : k = k'
    · simp [h2]
    · simp only [h2, if_false] at h
      simp [h2, ih h]

theorem mem_assign_self (k v : Int) (db : Db) : (k, v) ∈ assign k v db := by
  induction db with
  | nil => simp [assign]
  | cons q rest ih =>
    obtain ⟨k', v'⟩ := q
    simp only [assign]
    split_ifs with h1 h2
    · exact List.mem_cons_self _ _
    · exact List.mem_cons_self _ _
    · exact List.mem_cons_of_mem _ ih

theorem positive_assign (k v : Int) (db : Db) (hk : 0 < k) (h : Positive db) :
    Positive (assign k v db) := by
  intro p hp
  rcases mem_assign p k v db hp with hp | hp
  · rw [hp]; exact hk
  · exact h p hp

theorem positive_eraseKey (k : Int) (db : Db) (h : Positive db) :
    Positive (eraseKey k db) :=
  fun p hp => h p (mem_eraseKey p k db hp)

/-- Two maps with the same lookups are the same map. -/
theorem ordered_ext (a b : Db) (ha : Ordered a) (hb : Ordered b)
    (h : ∀ x, find x a = find x b) : a = b := by
  induction a generalizing b with
  | nil =>
    cases b with
    | nil => rfl
    | cons q rest =>
      obtain ⟨k, v⟩ := q
      have := h k
      simp [find] at this
  | cons p ra ih =>
    obtain ⟨k, v⟩ := p
    cases b with
    | nil =>
      have := h k
      simp [find] at this
    | cons q rb =>
      obtain ⟨k', v'⟩ := q
      rw [ordered_cons] at ha hb
      have hkk : k = k' := by
        by_contra hne
        rcases lt_or_gt_of_ne hne with hlt | hgt
        · have h1 := h k
          have h2 : find k ((k', v') :: rb) = none :=
            find_eq_none_of_lt k _ (by
              intro p hp
              rcases List.mem_cons.mp hp with hp | hp
              · rw [hp]; exact hlt
              · exact lt_trans hlt (hb.1 p hp))
          rw [h2] at h1
          simp [find] at h1
        · have h1 := h k'
          have h2 : find k' ((k, v) :: ra) = none :=
            find_eq_none_of_lt k' _ (by
              intro p hp
              rcases List.mem_cons.mp hp with hp | hp
              · rw [hp]; exact hgt
              · exact lt_trans hgt (ha.1 p hp))
          rw [h2] at h1
          simp [find] at h1
      subst hkk
      have hv : v = v' := by
        have := h k
        simpa [find] using this
      subst hv
      have hrest : ra = rb := by
        apply ih rb ha.2 hb.2
        intro x
        by_cases hx : x = k
        · subst hx
          rw [find_eq_none_of_lt x ra ha.1, find_eq_none_of_lt x rb hb.1]
        · have := h x
          simpa [find, hx] using this
      rw [hrest]

/-! ## Dispatch of the argument-free verbs -/

theorem handle_command_print (s : Daemon) (now : Int) :
    handle_command s now (lit "PRINT") = handlePrint s := by
  have h : split_ws (lit "PRINT") = [lit "PRINT"] := by decide
  have hu : (lit "PRINT").map toupper = lit "PRINT" := by decide
  unfold handle_command
  rw [h]
  simp only [hu]
  rw [if_neg (by decide), if_neg (by decide), if_pos (by decide)]

theorem handle_command_deleteall (s : Daemon) (now : Int) :
    handle_command s now (lit "DELETEALL") = handleDeleteAll s := by
  have h : split_ws (lit "DELETEALL") = [lit "DELETEALL"] := by decide
  have hu : (lit "DELETEALL").map toupper = lit "DELETEALL" := by decide
  unfold handle_command
  rw [h]
  simp only [hu]
  rw [if_neg (by decide), if_neg (by decide), if_neg (by decide), if_pos (by decide)]

theorem printLines_eq_flatten (db : Db) : printLines db = (detailLines db).flatten := by
  induction db with
  | nil => rfl
  | cons p rest ih =>
    obtain ⟨k, ts⟩ := p
    simp [printLines, detailLines, ih]

theorem printLines_append (a b : Db) : printLines (a ++ b) = printLines a ++ printLines b := by
  induction a with
  | nil => rfl
  | cons p rest ih =>
    obtain ⟨k, ts⟩ := p
    simp [printLines, ih]

/-! ## Invariants of the reachable states -/

theorem loadLoop_inv (P : Db → Prop)
    (hassign : ∀ k v db, 0 < k → P db → P (assign k v db)) :
    ∀ (fuel : Nat) (s : Str) (db : Db), P db → P (loadLoop fuel s db) := by
  intro fuel
  induction fuel with
  | zero => intro s db h; exact h
  | succ n ih =>
    intro s db h
    unfold loadLoop
    split
    · exact h
    · split
      · exact h
      · apply ih
        split_ifs with hpos
        · exact hassign _ _ _ hpos h
        · exact h

theorem loadText_ordered (s : Str) : Ordered (loadText s) :=
  loadLoop_inv Ordered (fun k v db _ h => ordered_assign k v db h) _ s [] (by simp [Ordered])

theorem loadText_positive (s : Str) : Positive (loadText s) :=
  loadLoop_inv Positive (fun k v db hk h => positive_assign k v db hk h) _ s []
    (by intro p hp; simp at hp)

theorem saveThenReply_eq (r : Str) (s : Daemon) :
    saveThenReply r s
      = if s.writable then (none, { s with file := some [] }) else (some r, s) := by
  unfold saveThenReply save_db_to_file_locked
  split_ifs <;> rfl

theorem saveThenReply_db (r : Str) (s : Daemon) : (saveThenReply r s).2.db = s.db := by
  rw [saveThenReply_eq]
  split_ifs <;> rfl

theorem handleInsert_db (s : Daemon) (now : Int) (parts : List Str) :
    (handleInsert s now parts).2.db = s.db ∨
    ∃ val, (handleInsert s now parts).2.db = assign val now s.db := by
  unfold handleInsert
  split_ifs
  · exact Or.inl rfl
  · split
    · exact Or.inl rfl
    · dsimp only
      split_ifs
      · exact Or.inl rfl
      · exact Or.inl rfl
      · exact Or.inr ⟨_, by rw [saveThenReply_db]⟩

theorem handleDelete_db (s : Daemon) (parts : List Str) :
    (handleDelete s parts).2.db = s.db ∨
    ∃ val, (handleDelete s parts).2.db = eraseKey val s.db := by
  unfold handleDelete
  split_ifs
  · exact Or.inl rfl
  · split
    · exact Or.inl rfl
    · dsimp only
      split_ifs
      · exact Or.inl rfl
      · split
        · exact Or.inl rfl
        · exact Or.inr ⟨_, by rw [saveThenReply_db]⟩

theorem handle_command_db (s : Daemon) (now : Int) (cmdline : Str) :
    (handle_command s now cmdline).2.db = s.db ∨
    (∃ val, (handle_command s now cmdline).2.db = assign val now s.db) ∨
    (∃ val, (handle_command s now cmdline).2.db = eraseKey val s.db) ∨
    (handle_command s now cmdline).2.db = [] := by
  unfold handle_command
  split
  · exact Or.inl rfl
  · dsimp only
    split_ifs
    · rcases handleInsert_db s now _ with h | h
      · exact Or.inl h
      · exact Or.inr (Or.inl h)
    · rcases handleDelete_db s _ with h | h
      · exact Or.inl h
      · exact Or.inr (Or.inr (Or.inl h))
    · exact Or.inl rfl
    · exact Or.inr (Or.inr (Or.inr (by unfold handleDeleteAll; rw [saveThenReply_db])))
    · exact Or.inl rfl
    · exact Or.inl rfl

/-- The daemon's map is a valid `std::map` in every reachable state. -/
theorem reachable_ordered (s : Daemon) (h : Reachable s) : Ordered s.db := by
  induction h with
  | start file writable => simp [Daemon.init, Ordered]
  | load s content _ ih =>
    cases content with
    | none => exact ih
    | some text => exact loadText_ordered text
  | command s now cmdline _ ih =>
    rcases handle_command_db s now cmdline with h | ⟨v, h⟩ | ⟨v, h⟩ | h
    · rw [h]; exact ih
    · rw [h]; exact ordered_assign _ _ _ ih
    · rw [h]; exact ordered_eraseKey _ _ ih
    · rw [h]; simp [Ordered]
  | env s file writable _ ih => exact ih

/-- The class invariant of `NumberStore`: a valid map with positive keys. -/
theorem NumberStore.reach_inv (db : Db) (h : NumberStore.Reach db) :
    Ordered db ∧ Positive db := by
  induction h with
  | empty => exact ⟨by simp [Ordered], by intro p hp; simp at hp⟩
  | insert db value now _ ih =>
    unfold NumberStore.insert
    split_ifs with h1 h2
    · exact ih
    · exact ih
    · exact ⟨ordered_assign _ _ _ ih.1, positive_assign _ _ _ (by omega) ih.2⟩
  | erase db value _ ih =>
    unfold NumberStore.erase
    split
    · exact ih
    · exact ⟨ordered_eraseKey _ _ ih.1, positive_eraseKey _ _ ih.2⟩
  | eraseAll db _ _ =>
    exact ⟨by simp [NumberStore.eraseAll, Ordered],
      by intro p hp; simp [NumberStore.eraseAll] at hp⟩
  | loadFromFile db content _ ih =>
    cases content with
    | none => exact ih
    | some text => exact ⟨loadText_ordered text, loadText_positive text⟩

/-! ## The `NumberStore` operations -/

/-- C3: on a store that does not hold the positive `value`,
`NumberStore::insert(value, now, msg)` returns true, sets `msg` to
"OK Inserted value now", makes `size()` one larger, and afterwards `getAll()`
is again a valid map whose lookups are those of the previous map, except that
`value` is mapped to `now`. -/
theorem insert_new_key (db : Db) (value now : Int) (ho : Ordered db)
    (hv : 0 < value) (hn : find value db = none) :
    (NumberStore.insert db value now).1 = true ∧
    (NumberStore.insert db value now).2.1
      = lit "OK Inserted " ++ showInt value ++ lit " " ++ showInt now ∧
    NumberStore.size (NumberStore.insert db value now).2.2 = NumberStore.size db + 1 ∧
    Ordered (NumberStore.getAll (NumberStore.insert db value now).2.2) ∧
    ∀ x, find x (NumberStore.getAll (NumberStore.insert db value now).2.2)
      = if x = value then some now else find x (NumberStore.getAll db) := by
  have h1 : ¬ value ≤ 0 := by omega
  have hins : NumberStore.insert db value now
      = (true, lit "OK Inserted " ++ showInt value ++ lit " " ++ showInt now,
          assign value now db) := by
    simp [NumberStore.insert, h1, hn]
  rw [hins]
  refine ⟨rfl, rfl, ?_, ?_, ?_⟩
  · exact length_assign value now db hn
  · exact ordered_assign value now db ho
  · intro x
    exact find_assign x value now db

theorem insert_new_key_witness :
    Ordered [(7, 5)] ∧ (0 : Int) < 42 ∧ find 42 [(7, 5)] = none ∧
    (NumberStore.insert [(7, 5)] 42 1000).1 = true ∧
    (NumberStore.insert [(7, 5)] 42 1000).2.1
      = lit "OK Inserted " ++ showInt 42 ++ lit " " ++ showInt 1000 ∧
    NumberStore.size (NumberStore.insert [(7, 5)] 42 1000).2.2
      = NumberStore.size [(7, 5)] + 1 ∧
    Ordered (NumberStore.getAll (NumberStore.insert [(7, 5)] 42 1000).2.2) ∧
    find 42 (NumberStore.getAll (NumberStore.insert [(7, 5)] 42 1000).2.2)
      = (if (42 : Int) = 42 then some 1000 else find 42 (NumberStore.getAll [(7, 5)])) ∧
    find 7 (NumberStore.getAll (NumberStore.insert [(7, 5)] 42 1000).2.2)
      = (if (7 : Int) = 42 then some 1000 else find 7 (NumberStore.getAll [(7, 5)])) :=
  have h := insert_new_key [(7, 5)] 42 1000 (by decide) (by decide) (by decide)
  ⟨by decide, by decide, by decide, h.1, h.2.1, h.2.2.1, h.2.2.2.1, h.2.2.2.2 42,
    h.2.2.2.2 7⟩

/-- C4: on a store (all keys positive, the class invariant) that holds `k`
with timestamp `t`, `NumberStore::insert(k, now, msg)` returns false with
`msg` "ERROR Duplicate entry not permitted" and leaves the store as it was:
same entries, same `size()`, and `k` still mapped to `t`. -/
theorem insert_duplicate (db : Db) (k now t : Int) (hp : Positive db)
    (hk : find k db = some t) :
    (NumberStore.insert db k now).1 = false ∧
    (NumberStore.insert db k now).2.1 = lit "ERROR Duplicate entry not permitted" ∧
    NumberStore.getAll (NumberStore.insert db k now).2.2 = NumberStore.getAll db ∧
    NumberStore.size (NumberStore.insert db k now).2.2 = NumberStore.size db ∧
    find k (NumberStore.insert db k now).2.2 = some t := by
  have hpos : 0 < k := hp (k, t) (mem_of_find k t db hk)
  have h1 : ¬ k ≤ 0 := by omega
  have hins : NumberStore.insert db k now
      = (false, lit "ERROR Duplicate entry not permitted", db) := by
    simp [NumberStore.insert, h1, hk]
  rw [hins]
  exact ⟨rfl, rfl, rfl, rfl, hk⟩

theorem insert_duplicate_witness :
    Positive [(42, 1000)] ∧ find 42 [(42, 1000)] = some 1000 ∧
    (NumberStore.insert [(42, 1000)] 42 1001).1 = false ∧
    (NumberStore.insert [(42, 1000)] 42 1001).2.1
      = lit "ERROR Duplicate entry not permitted" ∧
    NumberStore.getAll (NumberStore.insert [(42, 1000)] 42 1001).2.2
      = NumberStore.getAll [(42, 1000)] ∧
    NumberStore.size (NumberStore.insert [(42, 1000)] 42 1001).2.2
      = NumberStore.size [(42, 1000)] ∧
    find 42 (NumberStore.insert [(42, 1000)] 42 1001).2.2 = some 1000 :=
  ⟨by decide, by decide, insert_duplicate [(42, 1000)] 42 1001 1000 (by decide) (by decide)⟩

/-- C5: on a store that holds `k` with timestamp `t`, `NumberStore::erase(k, msg)`
returns true, sets `msg` to "OK Deleted k t", and removes exactly `k`:
afterwards `getAll()` is a valid map without `k` whose other lookups are
unchanged, and `size()` is one less. -/
theorem erase_present (db : Db) (k t : Int) (ho : Ordered db)
    (hk : find k db = some t) :
    (NumberStore.erase db k).1 = true ∧
    (NumberStore.erase db k).2.1 = lit "OK Deleted " ++ showInt k ++ lit " " ++ showInt t ∧
    NumberStore.size (NumberStore.erase db k).2.2 + 1 = NumberStore.size db ∧
    Ordered (NumberStore.getAll (NumberStore.erase db k).2.2) ∧
    ∀ x, find x (NumberStore.getAll (NumberStore.erase db k).2.2)
      = if x = k then none else find x (NumberStore.getAll db) := by
  have her : NumberStore.erase db k
      = (true, lit "OK Deleted " ++ showInt k ++ lit " " ++ showInt t, eraseKey k db) := by
    simp [NumberStore.erase, hk]
  rw [her]
  refine ⟨rfl, rfl, ?_, ?_, ?_⟩
  · exact length_eraseKey k t db hk
  · exact ordered_eraseKey k db ho
  · intro x
    exact find_eraseKey x k db ho

theorem erase_present_witness :
    Ordered [(7, 5), (42, 1234)] ∧ find 42 [(7, 5), (42, 1234)] = some 1234 ∧
    (NumberStore.erase [(7, 5), (42, 1234)] 42).1 = true ∧
    (NumberStore.erase [(7, 5), (42, 1234)] 42).2.1
      = lit "OK Deleted " ++ showInt 42 ++ lit " " ++ showInt 1234 ∧
    NumberStore.size (NumberStore.erase [(7, 5), (42, 1234)] 42).2.2 + 1
      = NumberStore.size [(7, 5), (42, 1234)] ∧
    Ordered (NumberStore.getAll (NumberStore.erase [(7, 5), (42, 1234)] 42).2.2) ∧
    find 42 (NumberStore.getAll (NumberStore.erase [(7, 5), (42, 1234)] 42).2.2)
      = (if (42 : Int) = 42 then none
          else find 42 (NumberStore.getAll [(7, 5), (42, 1234)])) ∧
    find 7 (NumberStore.getAll (NumberStore.erase [(7, 5), (42, 1234)] 42).2.2)
      = (if (7 : Int) = 42 then none
          else find 7 (NumberStore.getAll [(7, 5), (42, 1234)])) :=
  have h := erase_present [(7, 5), (42, 1234)] 42 1234 (by decide) (by decide)
  ⟨by decide, by decide, h.1, h.2.1, h.2.2.1, h.2.2.2.1, h.2.2.2.2 42, h.2.2.2.2 7⟩

/-- C6: on a store that does not hold `k`, `NumberStore::erase(k, msg)` returns
false with `msg` "ERROR Not found", and `getAll()` is the same before and
after. -/
theorem erase_absent (db : Db) (k : Int) (hk : find k db = none) :
    (NumberStore.erase db k).1 = false ∧
    (NumberStore.erase db k).2.1 = lit "ERROR Not found" ∧
    NumberStore.getAll (NumberStore.erase db k).2.2 = NumberStore.getAll db := by
  have her : NumberStore.erase db k = (false, lit "ERROR Not found", db) := by
    simp [NumberStore.erase, hk]
  rw [her]
  exact ⟨rfl, rfl, rfl⟩

theorem erase_absent_witness :
    find 99 [(7, 5)] = none ∧
    (NumberStore.erase [(7, 5)] 99).1 = false ∧
    (NumberStore.erase [(7, 5)] 99).2.1 = lit "ERROR Not found" ∧
    NumberStore.getAll (NumberStore.erase [(7, 5)] 99).2.2 = NumberStore.getAll [(7, 5)] :=
  ⟨by decide, erase_absent [(7, 5)] 99 (by decide)⟩

/-- C7 fails on the daemon: when the snapshot file can be opened, `DELETEALL`
clears the map, empties the file and has no reply, because an exception
leaves `handle_command` at the `save_db_to_file` call made under the
exclusive lock. What holds: `NumberStore::eraseAll` on a store with `n`
entries reports "OK DeletedAll n" and leaves it empty, and once more
"OK DeletedAll 0"; and so does the daemon's `DELETEALL` when the snapshot file
cannot be opened. -/
theorem deleteall_reply_lost (db : Db) (file : Option Str) (now now' : Int) :
    handle_command (Daemon.mk db file true) now (lit "DELETEALL")
      = (none, Daemon.mk [] (some []) true) ∧
    (NumberStore.eraseAll db).1 = lit "OK DeletedAll " ++ showNat (NumberStore.size db) ∧
    (NumberStore.eraseAll db).2 = [] ∧
    (NumberStore.eraseAll (NumberStore.eraseAll db).2).1 = lit "OK DeletedAll 0" ∧
    (NumberStore.eraseAll (NumberStore.eraseAll db).2).2 = [] ∧
    handle_command (Daemon.mk db file false) now (lit "DELETEALL")
      = (some (lit "OK DeletedAll " ++ showNat db.length), Daemon.mk [] file false) ∧
    handle_command (handle_command (Daemon.mk db file false) now (lit "DELETEALL")).2 now'
        (lit "DELETEALL")
      = (some (lit "OK DeletedAll 0"), Daemon.mk [] file false) := by
  have h0 : lit "OK DeletedAll " ++ showNat 0 = lit "OK DeletedAll 0" := by decide
  have hw : handle_command (Daemon.mk db file true) now (lit "DELETEALL")
      = (none, Daemon.mk [] (some []) true) := by
    rw [handle_command_deleteall]
    unfold handleDeleteAll
    rw [saveThenReply_eq]
    rfl
  have hu : ∀ (d : Db) (t : Int), handle_command (Daemon.mk d file false) t (lit "DELETEALL")
      = (some (lit "OK DeletedAll " ++ showNat d.length), Daemon.mk [] file false) := by
    intro d t
    rw [handle_command_deleteall]
    unfold handleDeleteAll
    rw [saveThenReply_eq]
    rfl
  refine ⟨hw, rfl, rfl, h0, rfl, hu db now, ?_⟩
  rw [hu db now]
  have := hu [] now'
  rw [this]
  show (some (lit "OK DeletedAll " ++ showNat 0), _) = _
  rw [h0]

/-- C8: in every reachable state with `N` entries the reply to `PRINT` is the
header "OK BEGIN_LIST N" and a newline, then the `N` detail lines "key ts" of
the entries, each ended by a newline, in strictly ascending key order, then
"OK END_LIST"; and `PRINT` leaves the state as it was. -/
theorem print_listing (s : Daemon) (now : Int) (h : Reachable s) :
    (handle_command s now (lit "PRINT")).1
      = lit "OK BEGIN_LIST " ++ showNat s.db.length ++ lit "\n"
        ++ (detailLines s.db).flatten ++ lit "OK END_LIST" ∧
    (detailLines s.db).length = s.db.length ∧
    detailLines s.db = s.db.map (fun p => showInt p.1 ++ lit " " ++ showInt p.2 ++ lit "\n") ∧
    List.Pairwise (fun p q => p.1 < q.1) s.db ∧
    (handle_command s now (lit "PRINT")).2 = s := by
  rw [handle_command_print]
  refine ⟨?_, ?_, ?_, ?_, rfl⟩
  · unfold handlePrint
    rw [printLines_eq_flatten]
  · simp [detailLines]
  · unfold detailLines entryLine
    have h1 : lit " " = [32] := by decide
    have h2 : lit "\n" = [10] := by decide
    rw [h1, h2]
    simp
  · have := reachable_ordered s h
    unfold Ordered at this
    exact List.pairwise_map.mp this

/-! ## Decimal output read back -/

theorem scanDigits_digits (ds rest : Str) (a : Nat) (any : Bool) (d : Nat)
    (hd : isdigit d = true) (hds : ∀ b ∈ ds, isdigit b = true) :
    scanDigits (d :: ds ++ rest) a any = scanDigits rest (digitsVal a (d :: ds)) true := by
  induction ds generalizing a any d with
  | nil => simp [scanDigits, hd, digitsVal]
  | cons e es ih =>
    have he : isdigit e = true := hds e (List.mem_cons_self _ _)
    have hes : ∀ b ∈ es, isdigit b = true := fun b hb => hds b (List.mem_cons_of_mem _ hb)
    have := ih (10 * a + (d - 48)) true e he hes
    simp only [List.cons_append] at this ⊢
    rw [scanDigits, if_pos hd, this]
    simp [digitsVal]

theorem scanDigits_stop (rest : Str) (a : Nat) (any : Bool) (h : NoDigitHead rest) :
    scanDigits rest a any = (a, any, rest) := by
  cases rest with
  | nil => rfl
  | cons b r =>
    unfold NoDigitHead at h
    simp [scanDigits, h]

theorem digitsAux_spec (fuel : Nat) :
    ∀ (n : Nat) (acc : Str), n < fuel →
      ∃ d ds, digitsAux fuel n acc = d :: ds ++ acc ∧ isdigit d = true ∧
        (∀ b ∈ ds, isdigit b = true) ∧ digitsVal 0 (d :: ds) = n := by
  induction fuel with
  | zero => intro n acc h; omega
  | succ f ih =>
    intro n acc h
    unfold digitsAux
    by_cases h10 : n < 10
    · refine ⟨48 + n, [], by simp [h10], ?_, by simp, ?_⟩
      · simp [isdigit]; omega
      · simp [digitsVal]
    · rw [if_neg h10]
      obtain ⟨d, ds, heq, hd, hds, hval⟩ := ih (n / 10) ((48 + n % 10) :: acc) (by omega)
      refine ⟨d, ds ++ [48 + n % 10], by simp [heq], hd, ?_, ?_⟩
      · intro b hb
        rcases List.mem_append.mp hb with hb | hb
        · exact hds b hb
        · simp only [List.mem_singleton] at hb
          subst hb
          simp [isdigit]; omega
      · have : digitsVal 0 (d :: (ds ++ [48 + n % 10]))
            = 10 * digitsVal 0 (d :: ds) + (48 + n % 10 - 48) := by
          simp [digitsVal, List.foldl_append]
        rw [this, hval]
        omega

theorem showNat_spec (n : Nat) :
    ∃ d ds, showNat n = d :: ds ∧ isdigit d = true ∧
      (∀ b ∈ ds, isdigit b = true) ∧ digitsVal 0 (d :: ds) = n := by
  obtain ⟨d, ds, heq, hd, hds, hval⟩ := digitsAux_spec (n + 1) n [] (by omega)
  exact ⟨d, ds, by simpa [showNat] using heq, hd, hds, hval⟩

theorem scanDigits_showNat (n : Nat) (rest : Str) (any : Bool) (h : NoDigitHead rest) :
    scanDigits (showNat n ++ rest) 0 any = (n, true, rest) := by
  obtain ⟨d, ds, heq, hd, hds, hval⟩ := showNat_spec n
  rw [heq, scanDigits_digits ds rest 0 any d hd hds, hval, scanDigits_stop rest n true h]

theorem isdigit_not_space (b : Nat) (h : isdigit b = true) : isspace b = false := by
  simp only [isdigit, Bool.and_eq_true, decide_eq_true_eq] at h
  simp [isspace]
  omega

theorem scanInt_showInt (v : Int) (rest : Str) (h : NoDigitHead rest) :
    scanInt (showInt v ++ rest) = some (v, rest) := by
  obtain ⟨d, ds, heq, hd, hds, hval⟩ := showNat_spec v.natAbs
  have hscan := scanDigits_showNat v.natAbs rest false h
  unfold showInt
  by_cases hneg : v < 0
  · rw [if_pos hneg]
    have hsp : skipws (45 :: showNat v.natAbs ++ rest) = 45 :: (showNat v.natAbs ++ rest) := by
      simp [skipws, isspace]
    unfold scanInt
    rw [hsp]
    simp only [if_true, hscan]
    congr 2
    omega
  · rw [if_neg hneg]
    have hd' : 48 ≤ d ∧ d ≤ 57 := by
      simpa [isdigit] using hd
    have hsp : skipws (showNat v.natAbs ++ rest) = d :: (ds ++ rest) := by
      rw [heq]
      simp [skipws, isdigit_not_space d hd]
    unfold scanInt
    rw [hsp]
    have h45 : d ≠ 45 := by omega
    have h43 : d ≠ 43 := by omega
    simp only [if_neg h45, if_neg h43]
    have hscan' : scanDigits (d :: (ds ++ rest)) 0 false = (v.natAbs, true, rest) := by
      rw [heq] at hscan
      simpa using hscan
    rw [hscan']
    simp only [Option.some.injEq, Prod.mk.injEq, and_true]
    omega

theorem scanInt_space (b : Nat) (s : Str) (h : isspace b = true) :
    scanInt (b :: s) = scanInt s := by
  unfold scanInt
  simp [skipws, h]

theorem readInt_showInt (lo hi v : Int) (rest : Str) (h : NoDigitHead rest)
    (hlo : lo ≤ v) (hhi : v ≤ hi) :
    readInt lo hi (showInt v ++ rest) = some (v, rest) := by
  unfold readInt
  rw [scanInt_showInt v rest h]
  simp [hlo, hhi]

theorem stoll_showInt (v : Int) (hlo : LLONG_MIN ≤ v) (hhi : v ≤ LLONG_MAX) :
    stoll (showInt v) = some v := by
  have := scanInt_showInt v [] trivial
  rw [List.append_nil] at this
  unfold stoll
  rw [this]
  simp [hlo, hhi]

theorem showInt_ne_nil (v : Int) : showInt v ≠ [] := by
  obtain ⟨d, ds, heq, _, _, _⟩ := showNat_spec v.natAbs
  unfold showInt
  split_ifs
  · simp
  · rw [heq]; simp

theorem showInt_no_space (v : Int) : ∀ b ∈ showInt v, isspace b = false := by
  obtain ⟨d, ds, heq, hd, hds, _⟩ := showNat_spec v.natAbs
  have hnat : ∀ b ∈ showNat v.natAbs, isspace b = false := by
    rw [heq]
    intro b hb
    rcases List.mem_cons.mp hb with hb | hb
    · rw [hb]; exact isdigit_not_space d hd
    · exact isdigit_not_space b (hds b hb)
  unfold showInt
  split_ifs
  · intro b hb
    rcases List.mem_cons.mp hb with hb | hb
    · rw [hb]; decide
    · exact hnat b hb
  · exact hnat

/-! ## Tokens -/

theorem splitAux_word (w rest cur : Str) (hw : ∀ b ∈ w, isspace b = false) :
    splitAux (w ++ rest) cur = splitAux rest (cur ++ w) := by
  induction w generalizing cur with
  | nil => simp
  | cons b bs ih =>
    have hb : isspace b = false := hw b (List.mem_cons_self _ _)
    have := ih (cur ++ [b]) (fun c hc => hw c (List.mem_cons_of_mem _ hc))
    simp only [List.cons_append, splitAux, hb]
    simpa using this

/-- A verb, one space and a decimal number are two tokens. -/
theorem split_ws_verb_arg (verb : Str) (v : Int) (hverb : verb ≠ [])
    (hw : ∀ b ∈ verb, isspace b = false) :
    split_ws (verb ++ 32 :: showInt v) = [verb, showInt v] := by
  unfold split_ws
  rw [splitAux_word verb _ [] hw]
  have h32 : isspace 32 = true := by decide
  simp only [List.nil_append, splitAux, h32, if_true, if_neg hverb]
  have := splitAux_word (showInt v) [] [] (showInt_no_space v)
  rw [List.append_nil] at this
  rw [this]
  simp [splitAux, showInt_ne_nil v]

/-! ## Frames -/

theorem noFail_tail (e : IoEvent) (es : List IoEvent) (h : NoFail (e :: es)) : NoFail es :=
  fun hm => h (List.mem_cons_of_mem _ hm)

theorem take_append_drop_length (m : Nat) (l : Str) :
    l.take m ++ l.drop (l.take m).length = l := by
  rw [List.length_take]
  rcases Nat.le_total m l.length with h | h
  · rw [Nat.min_eq_left h, List.take_append_drop]
  · rw [Nat.min_eq_right h, List.take_of_length_le h, List.drop_length, List.append_nil]

theorem readExactLoop_spec (fuel : Nat) :
    ∀ (fd : InFd) (left : Nat) (buf data rest : Str) (count : Nat),
      fd.pending = data ++ rest → data.length = left → NoFail fd.events →
      fd.events.length + left < fuel →
      ∃ es, readExactLoop fuel fd left buf count
          = ((count : Int), buf ++ data, { pending := rest, events := es }) ∧ NoFail es := by
  induction fuel with
  | zero => intro fd left buf data rest count _ _ _ h; omega
  | succ f ih =>
    intro fd left buf data rest count hp hlen hnf hfuel
    obtain ⟨pending, events⟩ := fd
    simp only at hp hnf hfuel
    subst hp
    have hcons : ∀ (e : IoEvent) (es : List IoEvent), (e :: es).length = es.length + 1 :=
      fun _ _ => rfl
    have hnil : ([] : List IoEvent).length = 0 := rfl
    unfold readExactLoop
    by_cases h0 : left = 0
    · have hd : data = [] := List.length_eq_zero.mp (by omega)
      subst hd
      exact ⟨events, by simp [h0], hnf⟩
    · rw [if_neg h0]
      have hdne : data ≠ [] := by
        intro hd; rw [hd] at hlen; simp at hlen; omega
      cases events with
      | nil =>
        have htake : (data ++ rest).take left = data := by
          rw [← hlen]; simp
        have hdrop : (data ++ rest).drop left = rest := by
          rw [← hlen]; simp
        simp only [read, htake, hdrop, if_neg hdne]
        obtain ⟨es, hes, hnf'⟩ := ih { pending := rest, events := [] } (left - data.length)
          (buf ++ data) [] rest count (by simp) (by simp; omega) hnf
          (by rw [hnil] at hfuel ⊢; omega)
        exact ⟨es, by simpa using hes, hnf'⟩
      | cons e es =>
        have hnf' : NoFail es := noFail_tail e es hnf
        cases e with
        | intr =>
          simp only [read, if_true]
          exact ih { pending := data ++ rest, events := es } left buf data rest count rfl hlen
            hnf' (by rw [hcons] at hfuel; show es.length + left < f; omega)
        | fail => exact absurd (List.mem_cons_self _ _) hnf
        | chunk n =>
          have hm : min (n + 1) left ≤ data.length := by omega
          have htake : (data ++ rest).take (min (n + 1) left) = data.take (min (n + 1) left) :=
            List.take_append_of_le_length hm
          have hdrop : (data ++ rest).drop (min (n + 1) left)
              = data.drop (min (n + 1) left) ++ rest :=
            List.drop_append_of_le_length hm
          have hne : data.take (min (n + 1) left) ≠ [] := by
            intro h
            have := congrArg List.length h
            rw [List.length_take, List.length_nil] at this
            omega
          simp only [read, htake, hdrop, if_neg hne]
          obtain ⟨es', hes, hnf''⟩ := ih
            { pending := data.drop (min (n + 1) left) ++ rest, events := es }
            (left - (data.take (min (n + 1) left)).length)
            (buf ++ data.take (min (n + 1) left)) (data.drop (min (n + 1) left)) rest count
            rfl (by simp; omega) hnf'
            (by
              rw [hcons] at hfuel
              show es.length + (left - (data.take (min (n + 1) left)).length) < f
              rw [List.length_take]
              omega)
          refine ⟨es', ?_, hnf''⟩
          rw [hes]
          simp [List.append_assoc]

theorem read_exact_spec (fd : InFd) (data rest : Str) (hp : fd.pending = data ++ rest)
    (hnf : NoFail fd.events) :
    ∃ es, read_exact fd data.length
        = ((data.length : Int), data, { pending := rest, events := es }) ∧ NoFail es := by
  obtain ⟨es, hes, hnf'⟩ := readExactLoop_spec (fd.events.length + data.length + 1) fd
    data.length [] data rest data.length hp rfl hnf (by omega)
  exact ⟨es, by simpa [read_exact] using hes, hnf'⟩

theorem writeExactLoop_spec (fuel : Nat) :
    ∀ (fd : OutFd) (rest : Str) (count : Nat), NoFail fd.events →
      fd.events.length + rest.length < fuel →
      ∃ es, writeExactLoop fuel fd rest count
          = ((count : Int), { sent := fd.sent ++ rest, events := es }) ∧ NoFail es := by
  induction fuel with
  | zero => intro fd rest count _ h; omega
  | succ f ih =>
    intro fd rest count hnf hfuel
    obtain ⟨sent, events⟩ := fd
    simp only at hnf hfuel
    have hcons : ∀ (e : IoEvent) (es : List IoEvent), (e :: es).length = es.length + 1 :=
      fun _ _ => rfl
    have hnil : ([] : List IoEvent).length = 0 := rfl
    unfold writeExactLoop
    by_cases h0 : rest = []
    · subst h0
      exact ⟨events, by simp, hnf⟩
    · rw [if_neg h0]
      have hlen : 0 < rest.length := List.length_pos.mpr h0
      cases events with
      | nil =>
        simp only [write, if_neg h0]
        obtain ⟨es, hes, hnf'⟩ := ih { sent := sent ++ rest, events := [] }
          (rest.drop rest.length) count hnf
          (by rw [hnil] at hfuel; simp only [List.drop_length, List.length_nil]; omega)
        exact ⟨es, by simpa using hes, hnf'⟩
      | cons e es =>
        have hnf' : NoFail es := noFail_tail e es hnf
        cases e with
        | intr =>
          simp only [write, if_true]
          exact ih { sent := sent, events := es } rest count hnf'
            (by rw [hcons] at hfuel; show es.length + rest.length < f; omega)
        | fail => exact absurd (List.mem_cons_self _ _) hnf
        | chunk n =>
          have hne : rest.take (n + 1) ≠ [] := by
            intro h
            have := congrArg List.length h
            rw [List.length_take, List.length_nil] at this
            omega
          simp only [write, if_neg hne]
          obtain ⟨es', hes, hnf''⟩ := ih
            { sent := sent ++ rest.take (n + 1), events := es }
            (rest.drop (rest.take (n + 1)).length) count hnf'
            (by
              rw [hcons] at hfuel
              show es.length + (rest.drop (rest.take (n + 1)).length).length < f
              rw [List.length_drop, List.length_take]
              omega)
          refine ⟨es', ?_, hnf''⟩
          rw [hes]
          simp only [List.append_assoc]
          rw [take_append_drop_length]

theorem write_exact_spec (fd : OutFd) (bytes : Str) (hnf : NoFail fd.events) :
    ∃ es, write_exact fd bytes
        = ((bytes.length : Int), { sent := fd.sent ++ bytes, events := es }) ∧ NoFail es := by
  obtain ⟨es, hes, hnf'⟩ := writeExactLoop_spec (fd.events.length + bytes.length + 1) fd
    bytes bytes.length hnf (by omega)
  exact ⟨es, by simpa [write_exact] using hes, hnf'⟩

theorem ntohl_htonl (n : Nat) (h : n < 4294967296) : ntohl (htonl n) = n := by
  unfold htonl ntohl
  simp only
  omega

theorem send_payload_spec (payload : Str) (hlen : payload.length < 4294967296)
    (out : OutFd) (hout : NoFail out.events) :
    ∃ es, send_payload out payload
      = (true, { sent := out.sent ++ htonl payload.length ++ payload, events := es }) := by
  unfold send_payload
  rw [Nat.mod_eq_of_lt hlen]
  obtain ⟨es1, h1, hnf1⟩ := write_exact_spec out (htonl payload.length) hout
  have h4 : ((htonl payload.length).length : Int) = 4 := rfl
  rw [h4] at h1
  simp only [h1, ne_eq, not_true_eq_false, if_false]
  by_cases hp : payload = []
  · subst hp
    exact ⟨es1, by simp⟩
  · obtain ⟨es2, h2, _⟩ := write_exact_spec
      { sent := out.sent ++ htonl payload.length, events := es1 } payload hnf1
    exact ⟨es2, by simp [hp, h2]⟩

theorem recv_payload_spec (payload : Str) (hlen : payload.length < 4294967296)
    (events : List IoEvent) (hin : NoFail events) (rest prev : Str) :
    ∃ es, recv_payload { pending := htonl payload.length ++ payload ++ rest, events := events }
        prev = (true, payload, { pending := rest, events := es }) := by
  unfold recv_payload
  obtain ⟨es1, h1, hnf1⟩ := read_exact_spec
    { pending := htonl payload.length ++ payload ++ rest, events := events }
    (htonl payload.length) (payload ++ rest) (by simp) hin
  have h4 : (htonl payload.length).length = 4 := rfl
  rw [h4] at h1
  simp only [h1, Nat.cast_ofNat, OfNat.ofNat_ne_zero, if_false, ne_eq, not_true_eq_false,
    ntohl_htonl payload.length hlen]
  by_cases hp : payload.length = 0
  · have : payload = [] := List.length_eq_zero.mp hp
    subst this
    exact ⟨es1, by simp⟩
  · obtain ⟨es2, h2, _⟩ := read_exact_spec
      { pending := payload ++ rest, events := es1 } payload rest rfl hnf1
    exact ⟨es2, by simp [hp, h2]⟩

/-- C10: for a payload of fewer than 2^32 bytes, `send_payload` succeeds and
writes exactly the four bytes of the length, most significant first, then the
payload; and `recv_payload` on these bytes (whatever follows them) succeeds
and returns the payload, leaving what follows unread. Both hold however the
`write` and `read` calls are cut into partial transfers and interrupted by
`EINTR`, as long as none fails with another error. -/
theorem frame_roundtrip (payload : Str) (hlen : payload.length < 4294967296)
    (out : OutFd) (hout : NoFail out.events)
    (events : List IoEvent) (hin : NoFail events) (rest prev : Str) :
    (send_payload out payload).1 = true ∧
    (send_payload out payload).2.sent
      = out.sent ++ [payload.length / 16777216 % 256, payload.length / 65536 % 256,
          payload.length / 256 % 256, payload.length % 256] ++ payload ∧
    (recv_payload
      (InFd.mk ((send_payload (OutFd.mk [] out.events) payload).2.sent ++ rest) events)
      prev).1 = true ∧
    (recv_payload
      (InFd.mk ((send_payload (OutFd.mk [] out.events) payload).2.sent ++ rest) events)
      prev).2.1 = payload ∧
    (recv_payload
      (InFd.mk ((send_payload (OutFd.mk [] out.events) payload).2.sent ++ rest) events)
      prev).2.2.pending = rest := by
  obtain ⟨es, hs⟩ := send_payload_spec payload hlen out hout
  obtain ⟨es0, hs0⟩ := send_payload_spec payload hlen { sent := [], events := out.events } hout
  obtain ⟨es', hr⟩ := recv_payload_spec payload hlen events hin rest prev
  have hsent : (send_payload (OutFd.mk [] out.events) payload).2.sent
      = htonl payload.length ++ payload := by
    rw [hs0]; rfl
  rw [hsent, hr, hs]
  exact ⟨rfl, rfl, rfl, rfl, rfl⟩

theorem frame_roundtrip_witness :
    (lit "PRINT").length < 4294967296 ∧
    NoFail [IoEvent.intr, IoEvent.chunk 1, IoEvent.intr] ∧
    NoFail [IoEvent.chunk 0, IoEvent.intr, IoEvent.intr, IoEvent.chunk 2] ∧
    (send_payload { sent := [], events := [IoEvent.intr, IoEvent.chunk 1, IoEvent.intr] }
      (lit "PRINT")).2.sent = [0, 0, 0, 5] ++ lit "PRINT" ∧
    (recv_payload
      (InFd.mk
        ((send_payload (OutFd.mk [] [IoEvent.intr, IoEvent.chunk 1, IoEvent.intr])
          (lit "PRINT")).2.sent ++ [0, 0])
        [IoEvent.chunk 0, IoEvent.intr, IoEvent.intr, IoEvent.chunk 2])
      []).2.1 = lit "PRINT" :=
  have h := frame_roundtrip (lit "PRINT") (by decide)
    { sent := [], events := [IoEvent.intr, IoEvent.chunk 1, IoEvent.intr] } (by decide)
    [IoEvent.chunk 0, IoEvent.intr, IoEvent.intr, IoEvent.chunk 2] (by decide) [0, 0] []
  ⟨by decide, by decide, by decide, h.2.1, h.2.2.2.1⟩

/-! ## `INSERT` through the dispatcher -/

theorem toInt32_of_range (v : Int) (hlo : INT_MIN ≤ v) (hhi : v ≤ INT_MAX) : toInt32 v = v := by
  unfold INT_MIN at hlo
  unfold INT_MAX at hhi
  unfold toInt32
  omega

theorem handle_command_insert (s : Daemon) (now k : Int) :
    handle_command s now (lit "INSERT " ++ showInt k)
      = handleInsert s now [lit "INSERT", showInt k] := by
  have hl : lit "INSERT " ++ showInt k = lit "INSERT" ++ 32 :: showInt k := by
    have : lit "INSERT " = lit "INSERT" ++ [32] := by decide
    rw [this]; simp
  have hsplit := split_ws_verb_arg (lit "INSERT") k (by decide) (by decide)
  have hu : (lit "INSERT").map toupper = lit "INSERT" := by decide
  unfold handle_command
  rw [hl, hsplit]
  simp only [hu, if_true]

theorem handle_command_insert_new (s : Daemon) (now k : Int) (hk : 0 < k)
    (hmax : k ≤ INT_MAX) (hn : find k s.db = none) :
    handle_command s now (lit "INSERT " ++ showInt k)
      = saveThenReply (lit "OK Inserted " ++ showInt k ++ lit " " ++ showInt now)
          { s with db := assign k now s.db } := by
  have hll : LLONG_MIN ≤ k ∧ k ≤ LLONG_MAX := by
    unfold INT_MAX at hmax
    unfold LLONG_MIN LLONG_MAX
    omega
  have hcast : toInt32 k = k := toInt32_of_range k (by unfold INT_MIN; omega) hmax
  have hnot : ¬ k ≤ 0 := by omega
  rw [handle_command_insert]
  unfold handleInsert
  simp [stoll_showInt k hll.1 hll.2, hnot, hcast, hn]

/-- C2 fails on the code: after "INSERT 4294967296" on the empty registry the
registry holds the key 0, which is not positive. The guard `v <= 0` is on the
`long long`, the key is that value cast to `int`. The key is stored whether
or not the snapshot file can be opened; the reply "OK Inserted 0 1000" is
returned when it cannot. -/
theorem nonpositive_key_reachable :
    Reachable (handle_command (Daemon.init none false) 1000 (lit "INSERT 4294967296")).2 ∧
    (handle_command (Daemon.init none false) 1000 (lit "INSERT 4294967296")).1
      = some (lit "OK Inserted 0 1000") ∧
    (handle_command (Daemon.init none false) 1000 (lit "INSERT 4294967296")).2.db
      = [(0, 1000)] ∧
    ¬ Positive (handle_command (Daemon.init none false) 1000 (lit "INSERT 4294967296")).2.db ∧
    (handle_command (Daemon.init none true) 1000 (lit "INSERT 4294967296")).2.db
      = [(0, 1000)] :=
  ⟨Reachable.command _ _ _ (Reachable.start none false), by decide, by decide, by decide,
    by decide⟩

/-! ## Snapshot written and read back -/

theorem assign_append_max (k v : Int) (acc : Db) (h : ∀ p ∈ acc, p.1 < k) :
    assign k v acc = acc ++ [(k, v)] := by
  induction acc with
  | nil => rfl
  | cons q rest ih =>
    obtain ⟨k', v'⟩ := q
    have hk' : k' < k := h (k', v') (List.mem_cons_self _ _)
    have h1 : ¬ k < k' := by omega
    have h2 : ¬ k = k' := by omega
    simp only [assign, if_neg h1, if_neg h2, List.cons_append]
    rw [ih (fun p hp => h p (List.mem_cons_of_mem _ hp))]

theorem readInt_space (lo hi : Int) (b : Nat) (s : Str) (h : isspace b = true) :
    readInt lo hi (b :: s) = readInt lo hi s := by
  unfold readInt
  rw [scanInt_space b s h]

theorem loadLoop_space (fuel : Nat) (b : Nat) (s : Str) (acc : Db) (h : isspace b = true) :
    loadLoop fuel (b :: s) acc = loadLoop fuel s acc := by
  cases fuel with
  | zero => rfl
  | succ f =>
    unfold loadLoop
    rw [readInt_space _ _ b s h]

theorem length_le_serialise (db : Db) : db.length ≤ (serialise db).length := by
  induction db with
  | nil => simp [serialise]
  | cons p rest ih =>
    obtain ⟨k, ts⟩ := p
    simp only [serialise, entryLine, List.length_cons, List.length_append, List.length_nil]
    omega

theorem loadLoop_serialise (l : Db) :
    ∀ (fuel : Nat) (acc : Db), l.length < fuel → Ordered l → InRange l → Positive l →
      (∀ p ∈ acc, ∀ q ∈ l, p.1 < q.1) →
      loadLoop fuel (serialise l) acc = acc ++ l := by
  induction l with
  | nil =>
    intro fuel acc hf _ _ _ _
    cases fuel with
    | zero => simp [loadLoop]
    | succ f => simp [loadLoop, serialise, readInt, scanInt, skipws]
  | cons p rest ih =>
    intro fuel acc hf ho hr hp hacc
    obtain ⟨k, ts⟩ := p
    cases fuel with
    | zero => simp at hf
    | succ f =>
      rw [ordered_cons] at ho
      have hrk := hr (k, ts) (List.mem_cons_self _ _)
      have hpk : 0 < k := hp (k, ts) (List.mem_cons_self _ _)
      have hser : serialise ((k, ts) :: rest)
          = showInt k ++ (32 :: (showInt ts ++ (10 :: serialise rest))) := by
        simp [serialise, entryLine]
      have h32 : isspace 32 = true := by decide
      have h10 : isspace 10 = true := by decide
      have hd32 : NoDigitHead (32 :: (showInt ts ++ (10 :: serialise rest))) := by
        show isdigit 32 = false; decide
      have hd10 : NoDigitHead (10 :: serialise rest) := by
        show isdigit 10 = false; decide
      have hread1 := readInt_showInt INT_MIN INT_MAX k _ hd32 hrk.1.1 hrk.1.2
      have hread2 : readInt LLONG_MIN LLONG_MAX (32 :: (showInt ts ++ (10 :: serialise rest)))
          = some (ts, 10 :: serialise rest) := by
        rw [readInt_space _ _ 32 _ h32]
        exact readInt_showInt LLONG_MIN LLONG_MAX ts _ hd10 hrk.2.1 hrk.2.2
      rw [hser]
      unfold loadLoop
      rw [hread1]
      simp only [hread2, if_pos hpk]
      rw [loadLoop_space f 10 _ _ h10]
      rw [assign_append_max k ts acc
        (fun p hp' => hacc p hp' (k, ts) (List.mem_cons_self _ _))]
      rw [ih f (acc ++ [(k, ts)]) (by simp at hf; omega) ho.2
        (fun q hq => hr q (List.mem_cons_of_mem _ hq))
        (fun q hq => hp q (List.mem_cons_of_mem _ hq))
        (by
          intro p hp' q hq
          rcases List.mem_append.mp hp' with hp' | hp'
          · exact hacc p hp' q (List.mem_cons_of_mem _ hq)
          · simp only [List.mem_singleton] at hp'
            rw [hp']
            exact ho.1 q hq)]
      simp

theorem loadText_serialise (db : Db) (ho : Ordered db) (hr : InRange db) (hp : Positive db) :
    loadText (serialise db) = db := by
  unfold loadText
  have := loadLoop_serialise db ((serialise db).length + 1) []
    (by have := length_le_serialise db; omega) ho hr hp (by intro p hp'; simp at hp')
  simpa using this

/-- C9: for every registry content, a valid map with positive keys (keys in
the `int` range, timestamps in the `long long` range), the empty one
included, the text written by `saveToFile` / `save_db_to_file` is read back by
`loadFromFile` / `load_db_from_file` as exactly that map, whatever the loading
object held before. -/
theorem snapshot_roundtrip (db : Db) (ho : Ordered db) (hr : InRange db)
    (hp : Positive db) (old : Option Str) (other : Db) (s t : Daemon)
    (hs : s.db = db) (hw : s.writable = true) :
    (NumberStore.saveToFile db true old).1 = true ∧
    NumberStore.loadFromFile (NumberStore.saveToFile db true old).2 other = (true, db) ∧
    (save_db_to_file s).1 = true ∧
    (load_db_from_file (save_db_to_file s).2.file t).1 = true ∧
    (load_db_from_file (save_db_to_file s).2.file t).2.db = db := by
  have hload := loadText_serialise db ho hr hp
  refine ⟨rfl, ?_, ?_, ?_, ?_⟩
  · simp [NumberStore.saveToFile, NumberStore.loadFromFile, hload]
  · simp [save_db_to_file, hw]
  · simp [save_db_to_file, hw, load_db_from_file]
  · simp [save_db_to_file, hw, load_db_from_file, hs, hload]

theorem snapshot_roundtrip_witness :
    Ordered [(7, -5), (42, 1000)] ∧ InRange [(7, -5), (42, 1000)] ∧
    Positive [(7, -5), (42, 1000)] ∧
    NumberStore.loadFromFile (NumberStore.saveToFile [(7, -5), (42, 1000)] true none).2 [(1, 1)]
      = (true, [(7, -5), (42, 1000)]) ∧
    (load_db_from_file (save_db_to_file (Daemon.mk [(7, -5), (42, 1000)] none true)).2.file
      (Daemon.mk [(1, 1)] none false)).2.db = [(7, -5), (42, 1000)] :=
  have h := snapshot_roundtrip [(7, -5), (42, 1000)] (by decide) (by decide) (by decide)
    none [(1, 1)] (Daemon.mk [(7, -5), (42, 1000)] none true) (Daemon.mk [(1, 1)] none false)
    rfl rfl
  ⟨by decide, by decide, by decide, h.2.1, h.2.2.2.2⟩

theorem print_listing_witness :
    Reachable (load_db_from_file (some (lit "7 5\n42 1000\n")) (Daemon.init none true)).2 ∧
    (load_db_from_file (some (lit "7 5\n42 1000\n")) (Daemon.init none true)).2.db
      = [(7, 5), (42, 1000)] ∧
    (handle_command
        (load_db_from_file (some (lit "7 5\n42 1000\n")) (Daemon.init none true)).2 1001
        (lit "PRINT")).1
      = lit "OK BEGIN_LIST "
        ++ showNat
          (load_db_from_file (some (lit "7 5\n42 1000\n")) (Daemon.init none true)).2.db.length
        ++ lit "\n"
        ++ (detailLines
            (load_db_from_file (some (lit "7 5\n42 1000\n"))
              (Daemon.init none true)).2.db).flatten
        ++ lit "OK END_LIST" ∧
    (handle_command
        (load_db_from_file (some (lit "7 5\n42 1000\n")) (Daemon.init none true)).2 1001
        (lit "PRINT")).2
      = (load_db_from_file (some (lit "7 5\n42 1000\n")) (Daemon.init none true)).2 :=
  have h := print_listing
    (load_db_from_file (some (lit "7 5\n42 1000\n")) (Daemon.init none true)).2
    1001 (Reachable.load _ _ (Reachable.start none true))
  ⟨Reachable.load _ _ (Reachable.start none true), by decide, h.1, h.2.2.2.2⟩

/-! ## The read loop never runs out of rounds -/

theorem scanDigits_length (s : Str) :
    ∀ (a : Nat) (any : Bool), (scanDigits s a any).2.2.length ≤ s.length ∧
      ((scanDigits s a any).2.1 = true → any = false →
        (scanDigits s a any).2.2.length < s.length) := by
  induction s with
  | nil => intro a any; simp [scanDigits]
  | cons b rest ih =>
    intro a any
    unfold scanDigits
    by_cases hd : isdigit b = true
    · rw [if_pos hd]
      have := (ih (10 * a + (b - 48)) true).1
      simp only [List.length_cons]
      exact ⟨by omega, fun _ _ => by omega⟩
    · rw [if_neg hd]
      simp only [List.length_cons, le_refl, true_and]
      intro h1 h2; rw [h1] at h2; simp at h2

theorem skipws_length (s : Str) : (skipws s).length ≤ s.length := by
  induction s with
  | nil => simp [skipws]
  | cons b rest ih =>
    unfold skipws
    split_ifs
    · simp only [List.length_cons]; omega
    · exact le_refl _

theorem scanInt_length (s r : Str) (v : Int) (h : scanInt s = some (v, r)) :
    r.length < s.length := by
  unfold scanInt at h
  have hsk := skipws_length s
  cases hs : skipws s with
  | nil => rw [hs] at h; simp at h
  | cons b rest =>
    rw [hs] at h hsk
    simp only [List.length_cons] at hsk
    have key : ∀ (t : Str) (n : Nat) (r' : Str), t.length ≤ rest.length + 1 →
        scanDigits t 0 false = (n, true, r') → r'.length < s.length := by
      intro t n r' ht hscan
      have := (scanDigits_length t 0 false).2 (by rw [hscan]) rfl
      rw [hscan] at this
      simp only at this
      omega
    simp only at h
    split_ifs at h with h45 h43
    · cases hsc : scanDigits rest 0 false with
      | mk n p =>
        obtain ⟨any, r'⟩ := p
        rw [hsc] at h
        cases any with
        | false => simp at h
        | true =>
          simp only [Option.some.injEq, Prod.mk.injEq] at h
          rw [← h.2]
          exact key rest n r' (by omega) hsc
    · cases hsc : scanDigits rest 0 false with
      | mk n p =>
        obtain ⟨any, r'⟩ := p
        rw [hsc] at h
        cases any with
        | false => simp at h
        | true =>
          simp only [Option.some.injEq, Prod.mk.injEq] at h
          rw [← h.2]
          exact key rest n r' (by omega) hsc
    · cases hsc : scanDigits (b :: rest) 0 false with
      | mk n p =>
        obtain ⟨any, r'⟩ := p
        rw [hsc] at h
        cases any with
        | false => simp at h
        | true =>
          simp only [Option.some.injEq, Prod.mk.injEq] at h
          rw [← h.2]
          exact key (b :: rest) n r' (by simp) hsc

theorem readInt_length (lo hi : Int) (s r : Str) (v : Int)
    (h : readInt lo hi s = some (v, r)) : r.length < s.length := by
  unfold readInt at h
  cases hs : scanInt s with
  | none => rw [hs] at h; simp at h
  | some p =>
    obtain ⟨v', r'⟩ := p
    rw [hs] at h
    simp only at h
    split_ifs at h
    simp only [Option.some.injEq, Prod.mk.injEq] at h
    rw [← h.2]
    exact scanInt_length s r' v' hs

/-- More rounds than the text has bytes change nothing: `loadText` is the
loop run to its end. -/
theorem loadLoop_fuel (f1 : Nat) :
    ∀ (f2 : Nat) (s : Str) (acc : Db), s.length < f1 → s.length < f2 →
      loadLoop f1 s acc = loadLoop f2 s acc := by
  induction f1 with
  | zero => intro f2 s acc h; omega
  | succ n ih =>
    intro f2 s acc h1 h2
    cases f2 with
    | zero => omega
    | succ m =>
      unfold loadLoop
      cases hr1 : readInt INT_MIN INT_MAX s with
      | none => rfl
      | some p =>
        obtain ⟨num, s1⟩ := p
        have hl1 := readInt_length _ _ s s1 num hr1
        simp only
        cases hr2 : readInt LLONG_MIN LLONG_MAX s1 with
        | none => rfl
        | some q =>
          obtain ⟨ts, s2⟩ := q
          have hl2 := readInt_length _ _ s1 s2 ts hr2
          simp only
          exact ih m s2 _ (by omega) (by omega)

/-! ## Frames through the connection handler -/

theorem send_payload_frame (payload : Str) (out : OutFd) (hout : NoFail out.events) :
    ∃ es, send_payload out payload
      = (true, { sent := out.sent ++ frame payload, events := es }) ∧ NoFail es := by
  unfold send_payload frame
  obtain ⟨es1, h1, hnf1⟩ := write_exact_spec out (htonl (payload.length % 4294967296)) hout
  have h4 : ((htonl (payload.length % 4294967296)).length : Int) = 4 := rfl
  rw [h4] at h1
  simp only [h1, ne_eq, not_true_eq_false, if_false]
  by_cases hp : payload = []
  · subst hp
    exact ⟨es1, by simp, hnf1⟩
  · obtain ⟨es2, h2, hnf2⟩ := write_exact_spec
      { sent := out.sent ++ htonl (payload.length % 4294967296), events := es1 } payload hnf1
    exact ⟨es2, by simp [hp, h2], hnf2⟩

theorem recv_payload_frame (payload : Str) (hlen : payload.length < 4294967296)
    (events : List IoEvent) (hin : NoFail events) (rest prev : Str) :
    ∃ es, recv_payload { pending := frame payload ++ rest, events := events } prev
        = (true, payload, { pending := rest, events := es }) ∧ NoFail es := by
  unfold recv_payload frame
  rw [Nat.mod_eq_of_lt hlen]
  obtain ⟨es1, h1, hnf1⟩ := read_exact_spec
    { pending := htonl payload.length ++ payload ++ rest, events := events }
    (htonl payload.length) (payload ++ rest) (by simp) hin
  have h4 : (htonl payload.length).length = 4 := rfl
  rw [h4] at h1
  simp only [h1, Nat.cast_ofNat, OfNat.ofNat_ne_zero, if_false, ne_eq, not_true_eq_false,
    ntohl_htonl payload.length hlen]
  by_cases hp : payload.length = 0
  · have : payload = [] := List.length_eq_zero.mp hp
    subst this
    exact ⟨es1, by simp, hnf1⟩
  · obtain ⟨es2, h2, hnf2⟩ := read_exact_spec
      { pending := payload ++ rest, events := es1 } payload rest rfl hnf1
    exact ⟨es2, by simp [hp, h2], hnf2⟩

/-! ## The replies of `handle_command` by kind -/

theorem startsWith_append (p x : Str) : startsWith p (p ++ x) := by
  unfold startsWith
  exact List.take_left' rfl

theorem startsWith_append_iff (p a x : Str) (h : p.length ≤ a.length) :
    startsWith p (a ++ x) ↔ startsWith p a := by
  unfold startsWith
  rw [List.take_append_of_le_length h]

theorem handleInsert_cases (s : Daemon) (now : Int) (parts : List Str) :
    ((handleInsert s now parts).2 = s ∧
        ∃ r, (handleInsert s now parts).1 = some r ∧ ¬ MutationReply r) ∨
    (∃ r db', MutationReply r ∧
        handleInsert s now parts = saveThenReply r { s with db := db' }) := by
  unfold handleInsert
  split_ifs
  · exact Or.inl ⟨rfl, _, rfl, by decide⟩
  · split
    · exact Or.inl ⟨rfl, _, rfl, by decide⟩
    · dsimp only
      split_ifs
      · exact Or.inl ⟨rfl, _, rfl, by decide⟩
      · exact Or.inl ⟨rfl, _, rfl, by decide⟩
      · refine Or.inr ⟨_, _, Or.inl ?_, rfl⟩
        simp only [List.append_assoc]
        exact startsWith_append _ _

theorem handleDelete_cases (s : Daemon) (parts : List Str) :
    ((handleDelete s parts).2 = s ∧
        ∃ r, (handleDelete s parts).1 = some r ∧ ¬ MutationReply r) ∨
    (∃ r db', MutationReply r ∧
        handleDelete s parts = saveThenReply r { s with db := db' }) := by
  unfold handleDelete
  split_ifs
  · exact Or.inl ⟨rfl, _, rfl, by decide⟩
  · split
    · exact Or.inl ⟨rfl, _, rfl, by decide⟩
    · dsimp only
      split_ifs
      · exact Or.inl ⟨rfl, _, rfl, by decide⟩
      · split
        · exact Or.inl ⟨rfl, _, rfl, by decide⟩
        · refine Or.inr ⟨_, _, Or.inr (Or.inl ?_), rfl⟩
          simp only [List.append_assoc]
          exact startsWith_append _ _

theorem handlePrint_not_mutation (s : Daemon) :
    ∃ r, (handlePrint s).1 = some r ∧ ¬ MutationReply r := by
  refine ⟨lit "OK BEGIN_LIST "
      ++ (showNat s.db.length ++ (lit "\n" ++ (printLines s.db ++ lit "OK END_LIST"))), ?_, ?_⟩
  · simp [handlePrint, List.append_assoc]
  · unfold MutationReply
    rw [startsWith_append_iff _ _ _ (by decide), startsWith_append_iff _ _ _ (by decide),
      startsWith_append_iff _ _ _ (by decide)]
    decide

/-- Every call of `handle_command` either leaves the state as it was and
replies with something that is not a mutation reply; or changes the map and
ends with `save_db_to_file` under the exclusive lock, followed, when that call
returns, by a mutation reply. -/
theorem handle_command_cases (s : Daemon) (now : Int) (cmdline : Str) :
    ((handle_command s now cmdline).2 = s ∧
        ∃ r, (handle_command s now cmdline).1 = some r ∧ ¬ MutationReply r) ∨
    (∃ r db', MutationReply r ∧
        handle_command s now cmdline = saveThenReply r { s with db := db' }) := by
  unfold handle_command
  split
  · exact Or.inl ⟨rfl, _, rfl, by decide⟩
  · dsimp only
    split_ifs
    · exact handleInsert_cases s now _
    · exact handleDelete_cases s _
    · exact Or.inl ⟨rfl, handlePrint_not_mutation s⟩
    · exact Or.inr ⟨_, _, Or.inr (Or.inr (startsWith_append _ _)), rfl⟩
    · exact Or.inl ⟨rfl, _, rfl, by decide⟩
    · exact Or.inl ⟨rfl, _, rfl, by decide⟩

/-! ## The loops on descriptors never run out of rounds -/

theorem readExactLoop_fuel (f1 : Nat) :
    ∀ (f2 : Nat) (fd : InFd) (left : Nat) (buf : Str) (count : Nat),
      fd.events.length + left < f1 → fd.events.length + left < f2 →
      readExactLoop f1 fd left buf count = readExactLoop f2 fd left buf count := by
  induction f1 with
  | zero => intro f2 fd left buf count h; omega
  | succ n ih =>
    intro f2 fd left buf count h1 h2
    cases f2 with
    | zero => omega
    | succ m =>
      obtain ⟨pending, events⟩ := fd
      simp only at h1 h2
      unfold readExactLoop
      by_cases h0 : left = 0
      · simp only [if_pos h0]
      · simp only [if_neg h0]
        cases events with
        | nil =>
          simp only [read]
          by_cases hb : List.take left pending = []
          · simp only [if_pos hb]
          · simp only [if_neg hb]
            have hlen : 0 < (List.take left pending).length := List.length_pos.mpr hb
            exact ih m _ _ _ _ (by simp only [List.length_nil] at h1 ⊢; omega)
              (by simp only [List.length_nil] at h2 ⊢; omega)
        | cons e es =>
          simp only [List.length_cons] at h1 h2
          cases e with
          | intr =>
            simp only [read, if_true]
            exact ih m _ _ _ _ (by show es.length + left < n; omega)
              (by show es.length + left < m; omega)
          | fail => simp only [read, Bool.false_eq_true, if_false]
          | chunk k =>
            simp only [read]
            by_cases hb : List.take (min (k + 1) left) pending = []
            · simp only [if_pos hb]
            · simp only [if_neg hb]
              exact ih m _ _ _ _
                (by show es.length + (left - _) < n; omega)
                (by show es.length + (left - _) < m; omega)

theorem writeExactLoop_fuel (f1 : Nat) :
    ∀ (f2 : Nat) (fd : OutFd) (rest : Str) (count : Nat),
      fd.events.length + rest.length < f1 → fd.events.length + rest.length < f2 →
      writeExactLoop f1 fd rest count = writeExactLoop f2 fd rest count := by
  induction f1 with
  | zero => intro f2 fd rest count h; omega
  | succ n ih =>
    intro f2 fd rest count h1 h2
    cases f2 with
    | zero => omega
    | succ m =>
      obtain ⟨sent, events⟩ := fd
      simp only at h1 h2
      unfold writeExactLoop
      by_cases h0 : rest = []
      · simp only [if_pos h0]
      · simp only [if_neg h0]
        have hpos : 0 < rest.length := List.length_pos.mpr h0
        cases events with
        | nil =>
          simp only [write, if_neg h0]
          exact ih m _ _ _
            (by simp only [List.length_nil, List.drop_length] at h1 ⊢; omega)
            (by simp only [List.length_nil, List.drop_length] at h2 ⊢; omega)
        | cons e es =>
          simp only [List.length_cons] at h1 h2
          cases e with
          | intr =>
            simp only [write, if_true]
            exact ih m _ _ _ (by show es.length + rest.length < n; omega)
              (by show es.length + rest.length < m; omega)
          | fail => simp only [write, Bool.false_eq_true, if_false]
          | chunk k =>
            simp only [write]
            by_cases hb : List.take (k + 1) rest = []
            · simp only [if_pos hb]
            · simp only [if_neg hb]
              exact ih m _ _ _
                (by
                  show es.length + (rest.drop (rest.take (k + 1)).length).length < n
                  rw [List.length_drop]; omega)
                (by
                  show es.length + (rest.drop (rest.take (k + 1)).length).length < m
                  rw [List.length_drop]; omega)

theorem readExactLoop_consumes (fuel : Nat) :
    ∀ (fd : InFd) (left : Nat) (buf : Str) (count : Nat),
      (readExactLoop fuel fd left buf count).2.2.pending.length ≤ fd.pending.length ∧
      (0 < count → (readExactLoop fuel fd left buf count).1 = (count : Int) →
        (readExactLoop fuel fd left buf count).2.2.pending.length + left
          ≤ fd.pending.length) := by
  induction fuel with
  | zero =>
    intro fd left buf count
    refine ⟨le_refl _, ?_⟩
    intro _ h
    simp only [readExactLoop] at h
    omega
  | succ f ih =>
    intro fd left buf count
    obtain ⟨pending, events⟩ := fd
    unfold readExactLoop
    by_cases h0 : left = 0
    · simp only [if_pos h0]
      exact ⟨le_refl _, fun _ _ => by omega⟩
    · simp only [if_neg h0]
      cases events with
      | nil =>
        simp only [read]
        by_cases hb : List.take left pending = []
        · simp only [if_pos hb, List.length_drop]
          exact ⟨by omega, fun hc h => by omega⟩
        · simp only [if_neg hb]
          have hi := ih { pending := List.drop left pending, events := [] }
            (left - (List.take left pending).length) (buf ++ List.take left pending) count
          simp only [List.length_drop, List.length_take] at hi ⊢
          exact ⟨by omega, fun hc h => by have := hi.2 hc h; omega⟩
      | cons e es =>
        cases e with
        | intr =>
          simp only [read, if_true]
          exact ih { pending := pending, events := es } left buf count
        | fail =>
          simp only [read, Bool.false_eq_true, if_false]
          exact ⟨le_refl _, fun hc h => by omega⟩
        | chunk k =>
          simp only [read]
          by_cases hb : List.take (min (k + 1) left) pending = []
          · simp only [if_pos hb, List.length_drop]
            exact ⟨by omega, fun hc h => by omega⟩
          · simp only [if_neg hb]
            have hi := ih { pending := List.drop (min (k + 1) left) pending, events := es }
              (left - (List.take (min (k + 1) left) pending).length)
              (buf ++ List.take (min (k + 1) left) pending) count
            simp only [List.length_drop, List.length_take] at hi ⊢
            exact ⟨by omega, fun hc h => by have := hi.2 hc h; omega⟩

theorem recv_payload_consumes (inp : InFd) (req : Str)
    (h : (recv_payload inp req).1 = true) :
    (recv_payload inp req).2.2.pending.length + 4 ≤ inp.pending.length := by
  unfold recv_payload at h ⊢
  have hc := readExactLoop_consumes (inp.events.length + 4 + 1) inp 4 [] 4
  unfold read_exact at h ⊢
  generalize readExactLoop (inp.events.length + 4 + 1) inp 4 [] 4 = r1 at h hc ⊢
  obtain ⟨r, len_net, fd1⟩ := r1
  simp only at h hc ⊢
  by_cases h0 : r = 0
  · simp only [if_pos h0] at h
    exact absurd h (by simp)
  · simp only [if_neg h0] at h ⊢
    by_cases h4 : r = 4
    · have hcons := hc.2 (by omega) (by simpa using h4)
      have hne : ¬ r ≠ 4 := fun hh => hh h4
      simp only [if_neg hne] at h ⊢
      by_cases hz : ntohl len_net = 0
      · simp only [if_pos hz]
        exact hcons
      · simp only [if_neg hz] at h ⊢
        have hc2 := (readExactLoop_consumes (fd1.events.length + ntohl len_net + 1) fd1
          (ntohl len_net) [] (ntohl len_net)).1
        generalize readExactLoop (fd1.events.length + ntohl len_net + 1) fd1
          (ntohl len_net) [] (ntohl len_net) = r2 at h hc2 ⊢
        obtain ⟨q, body, fd2⟩ := r2
        simp only at h hc2 ⊢
        by_cases hq : q ≠ (ntohl len_net : Int)
        · simp only [if_pos hq] at h
          exact absurd h (by simp)
        · simp only [if_neg hq]
          omega
    · have hne : r ≠ 4 := h4
      simp only [if_pos hne] at h
      exact absurd h (by simp)

theorem workerLoop_fuel (f1 : Nat) :
    ∀ (f2 : Nat) (clock : Nat → Int) (i : Nat) (s : Daemon) (inp : InFd) (out : OutFd)
      (req : Str), inp.pending.length < f1 → inp.pending.length < f2 →
      workerLoop f1 clock i s inp out req = workerLoop f2 clock i s inp out req := by
  induction f1 with
  | zero => intro f2 clock i s inp out req h; omega
  | succ n ih =>
    intro f2 clock i s inp out req h1 h2
    cases f2 with
    | zero => omega
    | succ m =>
      unfold workerLoop
      cases hr : recv_payload inp req with
      | mk ok p =>
        obtain ⟨req1, inp1⟩ := p
        cases ok with
        | false => rfl
        | true =>
          have hcons := recv_payload_consumes inp req (by rw [hr])
          rw [hr] at hcons
          simp only at hcons
          simp only
          by_cases hempty : req1 = []
          · simp only [if_pos hempty]
            exact ih m clock i s inp1 out req1 (by omega) (by omega)
          · simp only [if_neg hempty]
            cases hh : handle_command s (clock i) req1 with
            | mk reply s1 =>
              cases reply with
              | none => rfl
              | some r =>
                simp only
                cases hs : send_payload out r with
                | mk sent_ok out1 =>
                  cases sent_ok with
                  | false => rfl
                  | true =>
                    simp only
                    by_cases hq : quitRequested req1 = true
                    · simp only [if_pos hq]
                    · simp only [if_neg hq]
                      exact ih m clock (i + 1) _ inp1 out1 req1 (by omega) (by omega)

/-! ## Empty and blank frames -/

theorem splitAux_spaces (p : Str) (hp : ∀ b ∈ p, isspace b = true) : splitAux p [] = [] := by
  induction p with
  | nil => rfl
  | cons b rest ih =>
    have hb : isspace b = true := hp b (List.mem_cons_self _ _)
    simp only [splitAux, hb, if_true]
    exact ih (fun c hc => hp c (List.mem_cons_of_mem _ hc))

/-- C11, as the code has it: a frame with an empty payload makes the loop of
`client_worker` go to its next round with the daemon state and the written
bytes as they were: no reply, no change; `client_worker` does on a stream
that begins with such a frame what it does on the rest of the stream. A frame
whose payload is not empty and is only whitespace is answered with the reply
"ERROR Empty command"; the daemon state is unchanged and the loop goes to its
next round. -/
theorem empty_frame_no_reply (fuel : Nat) (clock : Nat → Int) (i : Nat) (s : Daemon)
    (events : List IoEvent) (out : OutFd) (req rest p : Str) (hin : NoFail events)
    (hout : NoFail out.events) (hp : ∀ b ∈ p, isspace b = true) (hne : p ≠ [])
    (hlen : p.length < 4294967296) :
    (∃ es, NoFail es ∧
      client_worker clock s (InFd.mk (frame [] ++ rest) events) out
        = client_worker clock s (InFd.mk rest es) out) ∧
    (∃ es, NoFail es ∧
      workerLoop (fuel + 1) clock i s (InFd.mk (frame [] ++ rest) events) out req
        = workerLoop fuel clock i s (InFd.mk rest es) out []) ∧
    (∃ es es', NoFail es ∧ NoFail es' ∧
      workerLoop (fuel + 1) clock i s (InFd.mk (frame p ++ rest) events) out req
        = workerLoop fuel clock (i + 1) s (InFd.mk rest es)
            (OutFd.mk (out.sent ++ frame (lit "ERROR Empty command")) es') p) := by
  refine ⟨?_, ?_, ?_⟩
  · obtain ⟨es, hrecv, hnf⟩ := recv_payload_frame [] (by decide) events hin rest []
    refine ⟨es, hnf, ?_⟩
    have hl : (frame [] ++ rest).length = rest.length + 3 + 1 := by
      simp [frame, htonl]
    unfold client_worker
    simp only [hl]
    conv => lhs; unfold workerLoop
    simp only [hrecv, if_true]
    exact workerLoop_fuel _ _ clock 0 s (InFd.mk rest es) out [] (by simp) (by simp)
  · obtain ⟨es, hrecv, hnf⟩ := recv_payload_frame [] (by decide) events hin rest req
    refine ⟨es, hnf, ?_⟩
    conv => lhs; unfold workerLoop
    simp only [hrecv, if_true]
  · obtain ⟨es, hrecv, hnf⟩ := recv_payload_frame p hlen events hin rest req
    have hsplit : split_ws p = [] := splitAux_spaces p hp
    have hc : handle_command s (clock i) p = (some (lit "ERROR Empty command"), s) := by
      unfold handle_command; rw [hsplit]
    have hq : quitRequested p = false := by
      unfold quitRequested; rw [hsplit]
    obtain ⟨es', hsend, hnf'⟩ := send_payload_frame (lit "ERROR Empty command") out hout
    refine ⟨es, es', hnf, hnf', ?_⟩
    conv => lhs; unfold workerLoop
    simp only [hrecv, if_neg hne, hc, hsend, hq, Bool.false_eq_true, if_false]

theorem empty_frame_no_reply_witness :
    NoFail [IoEvent.intr] ∧ NoFail (OutFd.mk [] [IoEvent.chunk 0]).events ∧
    (∀ b ∈ lit " \t", isspace b = true) ∧ lit " \t" ≠ [] ∧
    (lit " \t").length < 4294967296 ∧
    (∃ es, NoFail es ∧
      client_worker (fun _ => 1000) (Daemon.init none true)
          (InFd.mk (frame [] ++ frame (lit "PRINT")) [IoEvent.intr])
          (OutFd.mk [] [IoEvent.chunk 0])
        = client_worker (fun _ => 1000) (Daemon.init none true)
            (InFd.mk (frame (lit "PRINT")) es) (OutFd.mk [] [IoEvent.chunk 0])) :=
  have h := empty_frame_no_reply 3 (fun _ => 1000) 0 (Daemon.init none true)
    [IoEvent.intr] (OutFd.mk [] [IoEvent.chunk 0]) [] (frame (lit "PRINT")) (lit " \t")
    (by decide) (by decide) (by decide) (by decide) (by decide)
  ⟨by decide, by decide, by decide, by decide, by decide, h.1⟩

/-- C11 as stated fails: the payload of one space consists only of
whitespace, and `client_worker` answers its frame with the reply frame
"ERROR Empty command". -/
theorem blank_frame_counterexample :
    (∀ b ∈ lit " ", isspace b = true) ∧
    (client_worker (fun _ => 1000) (Daemon.init none true)
        (InFd.mk (frame (lit " ")) []) (OutFd.mk [] [])).2.2.sent
      = frame (lit "ERROR Empty command") ∧
    (client_worker (fun _ => 1000) (Daemon.init none true)
        (InFd.mk (frame (lit " ")) []) (OutFd.mk [] [])).2.2.sent ≠ [] := by
  decide

/-! ## Verbs -/

theorem handleInsert_head (s : Daemon) (now : Int) (p q : Str) (args : List Str) :
    handleInsert s now (p :: args) = handleInsert s now (q :: args) := by
  unfold handleInsert
  cases args <;> rfl

theorem handleDelete_head (s : Daemon) (p q : Str) (args : List Str) :
    handleDelete s (p :: args) = handleDelete s (q :: args) := by
  unfold handleDelete
  cases args <;> rfl

/-- C13: two payloads whose token lists differ only in the letter case of the
first token get the same reply and lead to the same state; and when the
upper-cased first token is none of `INSERT`, `DELETE`, `PRINT`, `DELETEALL`,
`QUIT`, `EXIT`, the reply is "ERROR Unknown command" and the state is
unchanged. -/
theorem verb_case_insensitive (s : Daemon) (now : Int) (c1 c2 p q : Str) (args : List Str)
    (h1 : split_ws c1 = p :: args) (h2 : split_ws c2 = q :: args)
    (hcase : p.map toupper = q.map toupper) :
    handle_command s now c1 = handle_command s now c2 ∧
    (p.map toupper ∉ [lit "INSERT", lit "DELETE", lit "PRINT", lit "DELETEALL",
        lit "QUIT", lit "EXIT"] →
      handle_command s now c1 = (some (lit "ERROR Unknown command"), s)) := by
  constructor
  · unfold handle_command
    rw [h1, h2]
    dsimp only
    rw [hcase, handleInsert_head s now p q args, handleDelete_head s p q args]
  · intro hnot
    simp only [List.mem_cons, List.mem_singleton, List.not_mem_nil, or_false, not_or] at hnot
    obtain ⟨n1, n2, n3, n4, n5, n6⟩ := hnot
    unfold handle_command
    rw [h1]
    dsimp only
    rw [if_neg n1, if_neg n2, if_neg n3, if_neg n4, if_neg (by simp [n5, n6])]

theorem verb_case_insensitive_witness :
    split_ws (lit "insert 5") = lit "insert" :: [lit "5"] ∧
    split_ws (lit "  InSeRt\t5 ") = lit "InSeRt" :: [lit "5"] ∧
    (lit "insert").map toupper = (lit "InSeRt").map toupper ∧
    handle_command (Daemon.init none false) 1000 (lit "insert 5")
      = handle_command (Daemon.init none false) 1000 (lit "  InSeRt\t5 ") ∧
    handle_command (Daemon.init none false) 1000 (lit "insert 5")
      = (some (lit "OK Inserted 5 1000"), Daemon.mk [(5, 1000)] none false) :=
  have h := verb_case_insensitive (Daemon.init none false) 1000 (lit "insert 5")
    (lit "  InSeRt\t5 ") (lit "insert") (lit "InSeRt") [lit "5"] (by decide) (by decide)
    (by decide)
  ⟨by decide, by decide, by decide, h.1, by decide⟩

/-! ## The snapshot file after a command -/

theorem handle_command_delete (s : Daemon) (now k : Int) :
    handle_command s now (lit "DELETE " ++ showInt k)
      = handleDelete s [lit "DELETE", showInt k] := by
  have hl : lit "DELETE " ++ showInt k = lit "DELETE" ++ 32 :: showInt k := by
    have : lit "DELETE " = lit "DELETE" ++ [32] := by decide
    rw [this]; simp
  have hsplit := split_ws_verb_arg (lit "DELETE") k (by decide) (by decide)
  have hu : (lit "DELETE").map toupper = lit "DELETE" := by decide
  unfold handle_command
  rw [hl, hsplit]
  dsimp only
  rw [hu, if_neg (by decide), if_pos rfl]

/-- C20 fails on the code. For every state, every time `now` and every `k`
with `0 < k ≤ INT_MAX`, the daemon's `handle_command` on "INSERT k" (the clock
reading `now`), "DELETE k" and "DELETEALL" leaves the same map as
`NumberStore::insert(k, now)`, `NumberStore::erase(k)` and
`NumberStore::eraseAll()` on that map. The replies are those of `NumberStore`
when the snapshot file cannot be opened for writing. When it can, the daemon
has no reply wherever `insert` or `erase` returns true, and none for
"DELETEALL", while `NumberStore` reports "OK ...". -/
theorem daemon_store_replies (s : Daemon) (now k : Int) (hk : 0 < k) (hmax : k ≤ INT_MAX) :
    (handle_command s now (lit "INSERT " ++ showInt k)).2.db
      = NumberStore.getAll (NumberStore.insert s.db k now).2.2 ∧
    (handle_command s now (lit "DELETE " ++ showInt k)).2.db
      = NumberStore.getAll (NumberStore.erase s.db k).2.2 ∧
    (handle_command s now (lit "DELETEALL")).2.db
      = NumberStore.getAll (NumberStore.eraseAll s.db).2 ∧
    (s.writable = false →
      (handle_command s now (lit "INSERT " ++ showInt k)).1
        = some (NumberStore.insert s.db k now).2.1 ∧
      (handle_command s now (lit "DELETE " ++ showInt k)).1
        = some (NumberStore.erase s.db k).2.1 ∧
      (handle_command s now (lit "DELETEALL")).1 = some (NumberStore.eraseAll s.db).1) ∧
    (s.writable = true →
      (handle_command s now (lit "INSERT " ++ showInt k)).1
        = (if (NumberStore.insert s.db k now).1 = true then none
            else some (NumberStore.insert s.db k now).2.1) ∧
      (handle_command s now (lit "DELETE " ++ showInt k)).1
        = (if (NumberStore.erase s.db k).1 = true then none
            else some (NumberStore.erase s.db k).2.1) ∧
      (handle_command s now (lit "DELETEALL")).1 = none) := by
  have hll : LLONG_MIN ≤ k ∧ k ≤ LLONG_MAX := by
    unfold INT_MAX at hmax
    unfold LLONG_MIN LLONG_MAX
    omega
  have hcast : toInt32 k = k := toInt32_of_range k (by unfold INT_MIN; omega) hmax
  have hnot : ¬ k ≤ 0 := by omega
  have hst := stoll_showInt k hll.1 hll.2
  rw [handle_command_insert, handle_command_delete, handle_command_deleteall]
  refine ⟨?_, ?_, ?_, ?_, ?_⟩
  · unfold handleInsert NumberStore.insert NumberStore.getAll
    cases hf : find k s.db <;> simp [hst, hnot, hcast, hf, saveThenReply_db]
  · unfold handleDelete NumberStore.erase NumberStore.getAll
    cases hf : find k s.db <;> simp [hst, hnot, hcast, hf, saveThenReply_db]
  · unfold handleDeleteAll NumberStore.eraseAll NumberStore.getAll
    rw [saveThenReply_db]
  · intro hw
    refine ⟨?_, ?_, ?_⟩
    · unfold handleInsert NumberStore.insert
      cases hf : find k s.db <;> simp [hst, hnot, hcast, hf, saveThenReply_eq, hw]
    · unfold handleDelete NumberStore.erase
      cases hf : find k s.db <;> simp [hst, hnot, hcast, hf, saveThenReply_eq, hw]
    · unfold handleDeleteAll NumberStore.eraseAll
      simp [saveThenReply_eq, hw]
  · intro hw
    refine ⟨?_, ?_, ?_⟩
    · unfold handleInsert NumberStore.insert
      cases hf : find k s.db <;> simp [hst, hnot, hcast, hf, saveThenReply_eq, hw]
    · unfold handleDelete NumberStore.erase
      cases hf : find k s.db <;> simp [hst, hnot, hcast, hf, saveThenReply_eq, hw]
    · unfold handleDeleteAll
      simp [saveThenReply_eq, hw]

theorem daemon_store_replies_witness :
    (0 : Int) < 42 ∧ (42 : Int) ≤ INT_MAX ∧
    (NumberStore.insert (Daemon.init none true).db 42 1000).2.1 = lit "OK Inserted 42 1000" ∧
    handle_command (Daemon.init none true) 1000 (lit "INSERT 42")
      = (none, Daemon.mk [(42, 1000)] (some []) true) ∧
    (NumberStore.erase (Daemon.mk [(42, 7)] none true).db 42).2.1 = lit "OK Deleted 42 7" ∧
    handle_command (Daemon.mk [(42, 7)] none true) 1000 (lit "DELETE 42")
      = (none, Daemon.mk [] (some []) true) ∧
    (NumberStore.eraseAll (Daemon.mk [(42, 7)] none true).db).1 = lit "OK DeletedAll 1" ∧
    handle_command (Daemon.mk [(42, 7)] none true) 1000 (lit "DELETEALL")
      = (none, Daemon.mk [] (some []) true) ∧
    (handle_command (Daemon.init none true) 1000 (lit "INSERT " ++ showInt 42)).1
      = (if (NumberStore.insert (Daemon.init none true).db 42 1000).1 = true then none
          else some (NumberStore.insert (Daemon.init none true).db 42 1000).2.1) ∧
    (handle_command (Daemon.init none true) 1000 (lit "INSERT " ++ showInt 42)).2.db
      = NumberStore.getAll (NumberStore.insert (Daemon.init none true).db 42 1000).2.2 :=
  have h := daemon_store_replies (Daemon.init none true) 1000 42 (by decide) (by decide)
  ⟨by decide, by decide, by decide, by decide, by decide, by decide, by decide, by decide,
    (h.2.2.2.2 rfl).1, h.1⟩

/-! ## Reload of a snapshot with a malformed line -/

theorem serialise_append (a b : Db) : serialise (a ++ b) = serialise a ++ serialise b := by
  induction a with
  | nil => rfl
  | cons p rest ih =>
    obtain ⟨k, ts⟩ := p
    simp [serialise, ih]

theorem loadLoop_stops (fuel : Nat) (s : Str) (db : Db) (h : StopsReading s) :
    loadLoop fuel s db = db := by
  cases fuel with
  | zero => rfl
  | succ f =>
    unfold StopsReading at h
    unfold loadLoop
    cases hr : readInt INT_MIN INT_MAX s with
    | none => rfl
    | some p =>
      obtain ⟨num, s1⟩ := p
      rw [hr] at h
      simp only at h
      simp only [h]

theorem loadLoop_lines (rest : Str) (l : Db) :
    ∀ (acc : Db), InRange l →
      loadLoop ((serialise l ++ rest).length + 1) (serialise l ++ rest) acc
        = loadLoop (rest.length + 1) rest (l.foldl loadStep acc) := by
  induction l with
  | nil => intro acc _; rfl
  | cons p tail ih =>
    intro acc hr
    obtain ⟨k, ts⟩ := p
    have hrk := hr (k, ts) (List.mem_cons_self _ _)
    have hrt : InRange tail := fun q hq => hr q (List.mem_cons_of_mem _ hq)
    have hser : serialise ((k, ts) :: tail) ++ rest
        = showInt k ++ (32 :: (showInt ts ++ (10 :: (serialise tail ++ rest)))) := by
      simp [serialise, entryLine]
    have h32 : isspace 32 = true := by decide
    have h10 : isspace 10 = true := by decide
    have hd32 : NoDigitHead (32 :: (showInt ts ++ (10 :: (serialise tail ++ rest)))) := by
      show isdigit 32 = false; decide
    have hd10 : NoDigitHead (10 :: (serialise tail ++ rest)) := by
      show isdigit 10 = false; decide
    have hread1 := readInt_showInt INT_MIN INT_MAX k _ hd32 hrk.1.1 hrk.1.2
    have hread2 : readInt LLONG_MIN LLONG_MAX
        (32 :: (showInt ts ++ (10 :: (serialise tail ++ rest))))
          = some (ts, 10 :: (serialise tail ++ rest)) := by
      rw [readInt_space _ _ 32 _ h32]
      exact readInt_showInt LLONG_MIN LLONG_MAX ts _ hd10 hrk.2.1 hrk.2.2
    have hlen1 := readInt_length _ _ _ _ _ hread1
    have hlen2 := readInt_length _ _ _ _ _ hread2
    simp only [List.length_cons, List.length_append] at hlen1 hlen2
    rw [hser]
    conv => lhs; unfold loadLoop
    rw [hread1]
    simp only [hread2]
    rw [loadLoop_space _ 10 _ _ h10]
    rw [loadLoop_fuel _ ((serialise tail ++ rest).length + 1) _ _
      (by simp only [List.length_cons, List.length_append] at *; omega) (by omega)]
    rw [ih _ hrt]
    rfl

/-- C14, as the code has it: when a snapshot text begins with the well-formed
lines of the entries `l` (keys in the `int` range, timestamps in the
`long long` range) and goes on with a text at which reading fails at once
(`StopsReading`: no key can be read, or a key and then no timestamp), loading it
yields exactly the entries of those lines whose key is positive, a later line
replacing an earlier one with the same key; lines with a key that is not
positive are skipped, and nothing after the malformed place is loaded. Both
`NumberStore::loadFromFile` and `load_db_from_file` load it so. -/
theorem reload_until_malformed (l : Db) (rest : Str) (hr : InRange l)
    (hbad : StopsReading rest) :
    loadText (serialise l ++ rest) = l.foldl loadStep [] ∧
    (∀ (db : Db) (k ts : Int), k ≤ 0 → loadStep db (k, ts) = db) ∧
    (∀ (db : Db) (k ts : Int), 0 < k → loadStep db (k, ts) = assign k ts db) ∧
    loadText (serialise l ++ rest) = loadText (serialise l) ∧
    (∀ (other : Db),
      NumberStore.loadFromFile (some (serialise l ++ rest)) other
        = (true, l.foldl loadStep [])) ∧
    (∀ (s : Daemon),
      load_db_from_file (some (serialise l ++ rest)) s
        = (true, { s with db := l.foldl loadStep [] })) := by
  have h1 : loadText (serialise l ++ rest) = l.foldl loadStep [] := by
    unfold loadText
    rw [loadLoop_lines rest l [] hr]
    exact loadLoop_stops _ rest _ hbad
  have h2 : loadText (serialise l) = l.foldl loadStep [] := by
    have := loadLoop_lines [] l [] hr
    rw [List.append_nil] at this
    unfold loadText
    rw [this]
    exact loadLoop_stops _ [] _ (by decide)
  refine ⟨h1, ?_, ?_, by rw [h1, h2], ?_, ?_⟩
  · intro db k ts hk
    unfold loadStep
    rw [if_neg (by simpa using hk)]
  · intro db k ts hk
    unfold loadStep
    rw [if_pos hk]
  · intro other
    simp only [NumberStore.loadFromFile, h1]
  · intro s
    simp only [load_db_from_file, h1]

theorem reload_until_malformed_witness :
    InRange [(5, 100), (-3, 7), (2, 9), (5, 101)] ∧ StopsReading (lit "x y\n3 4\n") ∧
    loadText (serialise [(5, 100), (-3, 7), (2, 9), (5, 101)] ++ lit "x y\n3 4\n")
      = [(5, 100), (-3, 7), (2, 9), (5, 101)].foldl loadStep [] ∧
    [(5, 100), (-3, 7), (2, 9), (5, 101)].foldl loadStep [] = [(2, 9), (5, 101)] :=
  have h := reload_until_malformed [(5, 100), (-3, 7), (2, 9), (5, 101)] (lit "x y\n3 4\n")
    (by decide) (by decide)
  ⟨by decide, by decide, h.1, by decide⟩

/-- C14 as stated fails: in the text of the three lines "1 2", "x y", "3 4"
the line "3 4" is well formed, has a positive key and comes after the
malformed line "x y", yet loading the text yields only the entry (1, 2): the
read loop ends at the first failure. The loop reads numbers, not lines: the
lines "1 2", "5", "6 7" load as (1, 2) and (5, 6), and the lines "5 3",
"6 1.5", "8 2" as (5, 3) and (6, 1), entries of no line of the text; at the
rests "5", "6 7" and "6 1.5", "8 2" reading does not stop at once. -/
theorem reload_counterexample :
    loadText (lit "1 2\nx y\n3 4\n") = [(1, 2)] ∧
    find 3 (loadText (lit "1 2\nx y\n3 4\n")) = none ∧
    loadText (lit "3 4\n") = [(3, 4)] ∧
    (NumberStore.loadFromFile (some (lit "1 2\nx y\n3 4\n")) []).2 = [(1, 2)] ∧
    (load_db_from_file (some (lit "1 2\nx y\n3 4\n")) (Daemon.init none true)).2.db
      = [(1, 2)] ∧
    loadText (lit "1 2\n5\n6 7\n") = [(1, 2), (5, 6)] ∧
    loadText (lit "5 3\n6 1.5\n8 2\n") = [(5, 3), (6, 1)] ∧
    ¬ StopsReading (lit "5\n6 7\n") ∧ ¬ StopsReading (lit "6 1.5\n8 2\n") := by
  decide

/-! ## Arguments of `INSERT` and `DELETE` -/

/-- C12 fails on the code: "INSERT 5abc" inserts the key 5 and "DELETE 12.7"
deletes the key 12, because `std::stoll` reads the digits at the front of the
token and ignores the rest. The replies are those of a snapshot file that
cannot be opened; the map changes in the same way when it can. "INSERT -3" is
answered "ERROR Only positive integers allowed", and a token without a
leading number "ERROR Invalid integer". -/
theorem invalid_argument_accepted :
    handle_command (Daemon.init none false) 1000 (lit "INSERT 5abc")
      = (some (lit "OK Inserted 5 1000"), Daemon.mk [(5, 1000)] none false) ∧
    handle_command (Daemon.mk [(12, 7)] none false) 1000 (lit "DELETE 12.7")
      = (some (lit "OK Deleted 12 7"), Daemon.mk [] none false) ∧
    (handle_command (Daemon.init none true) 1000 (lit "INSERT 5abc")).2.db = [(5, 1000)] ∧
    (handle_command (Daemon.mk [(12, 7)] none true) 1000 (lit "DELETE 12.7")).2.db = [] ∧
    handle_command (Daemon.init none false) 1000 (lit "INSERT -3")
      = (some (lit "ERROR Only positive integers allowed"), Daemon.init none false) ∧
    handle_command (Daemon.init none false) 1000 (lit "INSERT abc")
      = (some (lit "ERROR Invalid integer"), Daemon.init none false) ∧
    handle_command (Daemon.init none false) 1000 (lit "INSERT 1 2")
      = (some (lit "ERROR Usage: INSERT <positive_integer>"), Daemon.init none false) := by
  decide

/-! ## Lock operations of a command -/

/-- C17 fails on the code: when the snapshot file can be opened, the handlers
of a successful `INSERT`, `DELETE` and of `DELETEALL` call `save_db_to_file`,
which acquires `db_mutex` shared, before their exclusive lock on `db_mutex`
is released. The call does not return: the command has no reply and the file
is left empty. -/
theorem lock_reacquired :
    handle_command_locks (Daemon.init none true) (lit "INSERT 5")
      = [LockOp.lock, LockOp.lock_shared] ∧
    acquiresWhileExclusive false
      (handle_command_locks (Daemon.init none true) (lit "INSERT 5")) = true ∧
    acquiresWhileExclusive false
      (handle_command_locks (Daemon.mk [(5, 1000)] none true) (lit "DELETE 5")) = true ∧
    acquiresWhileExclusive false
      (handle_command_locks (Daemon.init none true) (lit "DELETEALL")) = true ∧
    acquiresWhileExclusive false
      (handle_command_locks (Daemon.init none true) (lit "PRINT")) = false ∧
    handle_command (Daemon.init none true) 1000 (lit "INSERT 5")
      = (none, Daemon.mk [(5, 1000)] (some []) true) := by
  decide

/-! ## Timestamps along a sequence of operations -/

theorem apply_ordered (db : Db) (op : StoreOp) (h : Ordered db) :
    Ordered (NumberStore.apply db op) := by
  cases op with
  | insert value now =>
    simp only [NumberStore.apply]
    unfold NumberStore.insert
    split_ifs
    · exact h
    · exact h
    · exact ordered_assign _ _ _ h
  | erase value =>
    simp only [NumberStore.apply]
    unfold NumberStore.erase
    split
    · exact h
    · exact ordered_eraseKey _ _ h
  | eraseAll => simp [NumberStore.apply, NumberStore.eraseAll, Ordered]

theorem lastInsert_run (k : Int) (ops : List StoreOp) :
    ∀ (db : Db) (acc : Option Int), Ordered db →
      (∀ t, find k db = some t → acc = some t) →
      ∀ t, find k (NumberStore.run db ops) = some t → lastInsert k db ops acc = some t := by
  induction ops with
  | nil =>
    intro db acc _ hinv t ht
    exact hinv t ht
  | cons op rest ih =>
    intro db acc ho hinv t ht
    have ho' := apply_ordered db op ho
    cases op with
    | insert value now =>
      simp only [NumberStore.run, lastInsert] at ht ⊢
      refine ih _ _ ho' ?_ t ht
      intro u hu
      simp only [NumberStore.apply] at hu
      unfold NumberStore.insert at hu
      unfold NumberStore.insert
      by_cases h1 : value ≤ 0
      · simp only [if_pos h1] at hu ⊢
        simp only [Bool.false_eq_true, and_false, if_false]
        exact hinv u hu
      · by_cases h2 : (find value db).isSome = true
        · simp only [if_neg h1, if_pos h2] at hu ⊢
          simp only [Bool.false_eq_true, and_false, if_false]
          exact hinv u hu
        · simp only [if_neg h1, if_neg h2] at hu ⊢
          rw [find_assign] at hu
          by_cases h3 : value = k
          · simp only [h3, and_self, if_true]
            rw [if_pos h3.symm] at hu
            exact hu
          · have h3' : ¬ k = value := fun h => h3 h.symm
            rw [if_neg h3'] at hu
            simp only [h3, false_and, if_false]
            exact hinv u hu
    | erase value =>
      simp only [NumberStore.run, lastInsert] at ht ⊢
      refine ih _ _ ho' ?_ t ht
      intro u hu
      simp only [NumberStore.apply] at hu
      unfold NumberStore.erase at hu
      cases hf : find value db with
      | none =>
        rw [hf] at hu
        exact hinv u hu
      | some ts =>
        rw [hf] at hu
        simp only at hu
        rw [find_eraseKey k value db ho] at hu
        by_cases h3 : k = value
        · rw [if_pos h3] at hu
          exact absurd hu (by simp)
        · rw [if_neg h3] at hu
          exact hinv u hu
    | eraseAll =>
      simp only [NumberStore.run, lastInsert] at ht ⊢
      refine ih _ _ ho' ?_ t ht
      intro u hu
      simp [NumberStore.apply, NumberStore.eraseAll, find] at hu

/-- C15: after any sequence of `insert`, `erase` and `eraseAll` calls on the
empty store, the timestamp recorded for a key `k` that is present is the `now`
argument of the most recent `insert(k, now)` that returned true. -/
theorem timestamp_is_last_insert (ops : List StoreOp) (k t : Int)
    (h : find k (NumberStore.run [] ops) = some t) :
    lastInsert k [] ops none = some t :=
  lastInsert_run k ops [] none (by simp [Ordered]) (by intro u hu; simp [find] at hu) t h

theorem timestamp_is_last_insert_witness :
    find 5 (NumberStore.run []
      [StoreOp.insert 5 100, StoreOp.insert 5 200, StoreOp.erase 7, StoreOp.insert 7 1,
        StoreOp.erase 7, StoreOp.erase 5, StoreOp.insert 5 300, StoreOp.insert 5 400])
      = some 300 ∧
    lastInsert 5 []
      [StoreOp.insert 5 100, StoreOp.insert 5 200, StoreOp.erase 7, StoreOp.insert 7 1,
        StoreOp.erase 7, StoreOp.erase 5, StoreOp.insert 5 300, StoreOp.insert 5 400] none
      = some 300 :=
  ⟨by decide, timestamp_is_last_insert
    [StoreOp.insert 5 100, StoreOp.insert 5 200, StoreOp.erase 7, StoreOp.insert 7 1,
      StoreOp.erase 7, StoreOp.erase 5, StoreOp.insert 5 300, StoreOp.insert 5 400]
    5 300 (by decide)⟩

/-! ## Inserts of distinct keys -/

/-- C18 fails on the code: 5 and 4294967301 are distinct positive keys and the
registry is empty, yet with a snapshot file that cannot be opened, whichever
of "INSERT 5" and "INSERT 4294967301" is handled second is answered
"ERROR Duplicate entry not permitted", and the registry ends with the single
key 5: the key stored is the argument cast to `int`. With a snapshot file
that can be opened, already the first "INSERT" has no reply. -/
theorem distinct_keys_collide :
    (5 : Int) ≠ 4294967301 ∧ (0 : Int) < 5 ∧ (0 : Int) < 4294967301 ∧
    handle_command (Daemon.init none false) 1000 (lit "INSERT 5")
      = (some (lit "OK Inserted 5 1000"), Daemon.mk [(5, 1000)] none false) ∧
    handle_command (Daemon.mk [(5, 1000)] none false) 1001 (lit "INSERT 4294967301")
      = (some (lit "ERROR Duplicate entry not permitted"),
          Daemon.mk [(5, 1000)] none false) ∧
    handle_command (Daemon.init none false) 1000 (lit "INSERT 4294967301")
      = (some (lit "OK Inserted 5 1000"), Daemon.mk [(5, 1000)] none false) ∧
    handle_command (Daemon.mk [(5, 1000)] none false) 1001 (lit "INSERT 5")
      = (some (lit "ERROR Duplicate entry not permitted"),
          Daemon.mk [(5, 1000)] none false) ∧
    handle_command (Daemon.init none true) 1000 (lit "INSERT 5")
      = (none, Daemon.mk [(5, 1000)] (some []) true) := by
  decide

/-! ## Replies of the connection handler -/

/-- C19 fails on the code: on the frames "INSERT 5", "PRINT", with a snapshot
file that can be opened, `client_worker` sends no reply at all: the key is
stored, the file emptied, an exception leaves `handle_command`, and the frame
"PRINT" is never read. With a snapshot file that cannot be opened the same
frames get their two replies, and frames after "quit" get none. -/
theorem worker_dies_on_mutation :
    client_worker (fun _ => 1000) (Daemon.init none true)
        (InFd.mk (frames [lit "INSERT 5", lit "PRINT"]) []) (OutFd.mk [] [])
      = (Daemon.mk [(5, 1000)] (some []) true, InFd.mk (frame (lit "PRINT")) [],
          OutFd.mk [] []) ∧
    (client_worker (fun _ => 1000) (Daemon.init none false)
        (InFd.mk (frames [lit "INSERT 5", lit "PRINT"]) []) (OutFd.mk [] [])).2.2.sent
      = frames [lit "OK Inserted 5 1000", lit "OK BEGIN_LIST 1\n5 1000\nOK END_LIST"] ∧
    (client_worker (fun _ => 1000) (Daemon.mk [(5, 7)] none true)
        (InFd.mk (frames [lit "PRINT", lit "DELETE 5", lit "PRINT", lit "quit"]) [])
        (OutFd.mk [] [])).2.2.sent
      = frames [lit "OK BEGIN_LIST 1\n5 7\nOK END_LIST"] ∧
    (client_worker (fun _ => 1000) (Daemon.mk [(5, 7)] none true)
        (InFd.mk (frames [lit "DELETEALL", lit "quit"]) []) (OutFd.mk [] [])).2.2.sent
      = [] ∧
    (client_worker (fun _ => 1000) (Daemon.mk [(5, 7)] none true)
        (InFd.mk (frames [lit "PRINT", lit "quit", lit "PRINT"]) [])
        (OutFd.mk [] [])).2.2.sent
      = frames [lit "OK BEGIN_LIST 1\n5 7\nOK END_LIST", lit "OK BYE"] := by
  decide

end Numd
